import Mathlib

/-! CopyQ command completer (`src/gui/commandcompleter.cpp`)

A shallow embedding of the command completer: the documentation table and the
completion data model (`CommandCompleterModel`), and the completion controller
(`CommandCompleter`) working on the text cursor of the host editor.

The host editor is a toolkit widget.  Its text-cursor operations used by the
controller (`movePosition`, `select`, `insertText`, `characterAt`) are modelled
here on a document given as its sequence of characters, in which blocks
(paragraphs) are separated by the paragraph separator U+2029, and in which
every character is one cursor step.
-/

namespace CopyQ

/-! ## Strings and characters -/

/-- A `QString`, as its sequence of characters. -/
abbrev QString := List Char

/-- The null character, `QChar()`. -/
def nullChar : Char := Char.ofNat 0

/-- The block separator of a text document, `QChar::ParagraphSeparator`. -/
def paragraphSeparator : Char := Char.ofNat 0x2029

/-- The characters `QTextEngine::atWordSeparator` answers `true` for. -/
def wordSeparators : QString :=
  ".,?!@#$:;-<>[]()\x7b\x7d=/+%&^*\x27\x22\x60~|\x5c".toList

/-- `QTextEngine::atWordSeparator`, on the character at the position asked. -/
def atWordSeparator (c : Char) : Bool := wordSeparators.contains c

/-- The character classification of the toolkit that the cursor operations
consult: `QChar::isLetter`, the `whiteSpace` character attribute and the case
folding used by case-insensitive matching, with the facts of the classification
that matter here: the null character and the paragraph separator are not
letters, and a letter is neither white space nor a word separator. -/
structure CharClass where
  isLetter : Char → Bool
  isSpace : Char → Bool
  toLower : Char → Char
  isLetter_null : isLetter nullChar = false
  isLetter_paragraphSeparator : isLetter paragraphSeparator = false
  isLetter_not_isSpace : ∀ c, isLetter c = true → isSpace c = false
  isLetter_not_atWordSeparator : ∀ c, isLetter c = true → atWordSeparator c = false

/-- The classification restricted to ASCII: ASCII letters, ASCII white space. -/
def asciiClass : CharClass where
  isLetter := Char.isAlpha
  isSpace := Char.isWhitespace
  toLower := Char.toLower
  isLetter_null := by decide
  isLetter_paragraphSeparator := by decide
  isLetter_not_isSpace := by
    intro c hc
    simp only [Char.isAlpha, Char.isUpper, Char.isLower, Bool.or_eq_true, Bool.and_eq_true,
      decide_eq_true_eq] at hc
    have h1 : c ≠ ' ' := by rintro rfl; revert hc; decide
    have h2 : c ≠ '\t' := by rintro rfl; revert hc; decide
    have h3 : c ≠ '\r' := by rintro rfl; revert hc; decide
    have h4 : c ≠ '\n' := by rintro rfl; revert hc; decide
    simp [Char.isWhitespace, h1, h2, h3, h4]
  isLetter_not_atWordSeparator := by
    intro c hc
    have hall : ∀ d ∈ wordSeparators, Char.isAlpha d = false := by decide
    cases hs : atWordSeparator c
    · rfl
    · have hmem : c ∈ wordSeparators := by
        simpa [atWordSeparator, List.contains_iff_exists_mem_beq] using hs
      rw [hall c hmem] at hc
      exact absurd hc (by decide)

/-! ## The text document and its cursor -/

/-- A character inside a block: any character but the paragraph separator. -/
def inBlock (c : Char) : Bool := c != paragraphSeparator

/-- The characters of the block containing position `p` that lie before `p`:
back from `p` to the closest paragraph separator. -/
def blockBefore (text : QString) (p : Nat) : QString :=
  ((text.take p).reverse.takeWhile inBlock).reverse

/-- The characters of the block containing position `p` that lie at or after
`p`: on from `p` to the closest paragraph separator. -/
def blockAfter (text : QString) (p : Nat) : QString :=
  (text.drop p).takeWhile inBlock

/-- The text of the block containing position `p`, without its separator;
its length is `blockIt.length() - 1`. -/
def blockText (text : QString) (p : Nat) : QString :=
  blockBefore text p ++ blockAfter text p

/-- `QTextBlock::position` of the block containing position `p`. -/
def blockPosition (text : QString) (p : Nat) : Nat :=
  p - (blockBefore text p).length

/-- `QTextDocument::characterAt`: the character at `pos`, or the null
character if `pos` is out of range. -/
def characterAt (text : QString) (pos : Int) : Char :=
  if 0 ≤ pos then text.getD pos.toNat nullChar else nullChar

/-- `QTextLayout::CursorMode`. -/
inductive CursorMode where
  | SkipCharacters
  | SkipWords
  deriving DecidableEq, Repr

/-- A character that continues a word: the loop condition
`!attributes[i].whiteSpace && !atWordSeparator(i)`. -/
def inWord (cc : CharClass) (c : Char) : Bool :=
  !cc.isSpace c && !atWordSeparator c

/-- The backward loops of `QTextLayout::previousCursorPosition` in `SkipWords`
mode, run on the characters before the old position, closest first: white space
is skipped, then a run of word separators if a separator comes next, and a run
of word characters otherwise.  The result is the new position: the number of
characters left before it. -/
def skipWordsBack (cc : CharClass) (before : QString) : Nat :=
  let r := before.dropWhile cc.isSpace
  match r with
  | [] => 0
  | c :: _ =>
    if atWordSeparator c then (r.dropWhile atWordSeparator).length
    else (r.dropWhile (inWord cc)).length

/-- `QTextLayout::previousCursorPosition(oldPos, mode)` on the text of one
block.  With `SkipCharacters` the position moves one character back, with
`SkipWords` the backward loops run. -/
def layoutPreviousCursorPosition (cc : CharClass) (block : QString) (oldPos : Nat) :
    CursorMode → Nat
  | .SkipCharacters =>
    if oldPos = 0 ∨ oldPos > block.length then oldPos else oldPos - 1
  | .SkipWords =>
    if oldPos = 0 ∨ oldPos > block.length then oldPos
    else skipWordsBack cc (block.take oldPos).reverse

/-- `QTextDocumentPrivate::previousCursorPosition(position, mode)`: at the start
of the document the position stays, at the start of a block it moves to the end
of the block before, and inside a block the layout of the block decides. -/
def previousCursorPosition (cc : CharClass) (text : QString) (position : Nat)
    (mode : CursorMode) : Nat :=
  if position = 0 then position
  else
    let start := blockPosition text position
    if position = start then start - 1
    else layoutPreviousCursorPosition cc (blockText text position) (position - start) mode + start

/-- The forward loops of `QTextCursor::EndOfWord` on the characters of the block
from the cursor on: a run of word separators when the cursor is at a separator,
and a run of word characters otherwise.  The result is the number of characters
passed. -/
def endOfWordAdvance (cc : CharClass) (after : QString) : Nat :=
  match after with
  | [] => 0
  | c :: rest =>
    if atWordSeparator c then 1 + (rest.takeWhile atWordSeparator).length
    else (after.takeWhile (inWord cc)).length

/-- `QTextCursor::MoveOperation`, the operations the completer uses. -/
inductive MoveOperation where
  | Left
  | StartOfWord
  | EndOfWord
  deriving DecidableEq, Repr

/-- `QTextCursor::MoveMode`. -/
inductive MoveMode where
  | MoveAnchor
  | KeepAnchor
  deriving DecidableEq, Repr

/-- `QTextCursor::SelectionType`, the selection the completer uses. -/
inductive SelectionType where
  | WordUnderCursor
  deriving DecidableEq, Repr

/-- A `QTextCursor` together with the document it edits. -/
structure QTextCursor where
  document : QString
  position : Nat
  anchor : Nat
  deriving DecidableEq, Repr

namespace QTextCursor

/-- The new position `QTextCursorPrivate::movePosition` computes for the
operation, or `none` where it returns early without moving. -/
def newPosition (cc : CharClass) (tc : QTextCursor) : MoveOperation → Option Nat
  | .Left => some (previousCursorPosition cc tc.document tc.position .SkipCharacters)
  | .StartOfWord =>
    let before := blockBefore tc.document tc.position
    let after := blockAfter tc.document tc.position
    let relativePos := before.length
    if relativePos = 0 then some tc.position
    else if after = [] ∧ (cc.isSpace (before.getLastD nullChar)
        || atWordSeparator (before.getLastD nullChar)) = true then none
    else
      let position := if after ≠ [] then tc.position + 1 else tc.position
      some (previousCursorPosition cc tc.document position .SkipWords)
  | .EndOfWord =>
    let after := blockAfter tc.document tc.position
    if after = [] then none
    else some (tc.position + endOfWordAdvance cc after)

/-- `QTextCursor::movePosition(op, mode)`: the cursor moves to the new position,
and with `MoveAnchor` the anchor follows it. -/
def movePosition (cc : CharClass) (tc : QTextCursor) (op : MoveOperation) (mode : MoveMode) :
    QTextCursor :=
  match tc.newPosition cc op with
  | none => tc
  | some p =>
    match mode with
    | .MoveAnchor => { tc with position := p, anchor := p }
    | .KeepAnchor => { tc with position := p }

/-- `QTextCursor::clearSelection`. -/
def clearSelection (tc : QTextCursor) : QTextCursor :=
  { tc with anchor := tc.position }

/-- `QTextCursor::select(selection)`. -/
def select (cc : CharClass) (tc : QTextCursor) : SelectionType → QTextCursor
  | .WordUnderCursor =>
    let tc := tc.clearSelection
    let tc := tc.movePosition cc .StartOfWord .MoveAnchor
    tc.movePosition cc .EndOfWord .KeepAnchor

/-- `QTextCursor::selectionStart`. -/
def selectionStart (tc : QTextCursor) : Nat := min tc.position tc.anchor

/-- `QTextCursor::selectionEnd`. -/
def selectionEnd (tc : QTextCursor) : Nat := max tc.position tc.anchor

/-- `QTextCursor::selectedText`. -/
def selectedText (tc : QTextCursor) : QString :=
  (tc.document.drop tc.selectionStart).take (tc.selectionEnd - tc.selectionStart)

/-- `QTextCursor::insertText(text)`: the selection is removed, the text is
inserted in its place and the cursor ends after the inserted text. -/
def insertText (tc : QTextCursor) (text : QString) : QTextCursor :=
  { document := tc.document.take tc.selectionStart ++ text ++ tc.document.drop tc.selectionEnd
    position := tc.selectionStart + text.length
    anchor := tc.selectionStart + text.length }

end QTextCursor

/-- The host editor: its plain text and the position of its text cursor, which
carries no selection. -/
structure QPlainTextEdit where
  text : QString
  cursorPosition : Nat
  deriving DecidableEq, Repr

namespace QPlainTextEdit

/-- `QPlainTextEdit::textCursor`: a copy of the cursor of the editor. -/
def textCursor (e : QPlainTextEdit) : QTextCursor :=
  { document := e.text, position := e.cursorPosition, anchor := e.cursorPosition }

/-- `QPlainTextEdit::setTextCursor`: the editor takes the position of the
cursor; the document is the one the cursor has edited. -/
def setTextCursor (_e : QPlainTextEdit) (tc : QTextCursor) : QPlainTextEdit :=
  { text := tc.document, cursorPosition := tc.position }

end QPlainTextEdit

/-! ## The completion controller: prefix and commit -/

/-- `CommandCompleter::insertCompletion`. -/
def insertCompletion (cc : CharClass) (m_editor : QPlainTextEdit) (completion : QString) :
    QPlainTextEdit :=
  let tc := m_editor.textCursor
  let tc := tc.movePosition cc .Left .MoveAnchor
  let tc := tc.movePosition cc .StartOfWord .MoveAnchor
  let tc := tc.movePosition cc .EndOfWord .KeepAnchor
  let tc := tc.insertText completion
  m_editor.setTextCursor tc

/-- `CommandCompleter::textUnderCursor`. -/
def textUnderCursor (cc : CharClass) (m_editor : QPlainTextEdit) : QString :=
  let tc := m_editor.textCursor
  let c := characterAt tc.document ((tc.position : Int) - 1)
  if !cc.isLetter c then []
  else
    let tc := tc.select cc .WordUnderCursor
    tc.selectedText


/-! ## The completion controller: popup and keys -/

/-- The match of `QCompleter` with `Qt::CaseInsensitive`: the completion prefix
is a prefix of the name, case folded. -/
def matchesPrefix (cc : CharClass) (completionPrefix name : QString) : Bool :=
  (completionPrefix.map cc.toLower).isPrefixOf (name.map cc.toLower)

/-- The `QCompleter` of the controller with its popup: the rows of its model
(column 0), the completion prefix, its current row among the matches, and the
popup with its visibility and the row of its current index (`-1` for an invalid
index). -/
structure QCompleter where
  model : List QString
  completionPrefix : QString
  currentRow : Int
  popupVisible : Bool
  popupCurrentRow : Int
  deriving DecidableEq, Repr

namespace QCompleter

/-- The rows of `QCompleter::completionModel`: the names that match the
completion prefix, in the order of the model. -/
def completionModel (cc : CharClass) (c : QCompleter) : List QString :=
  c.model.filter (matchesPrefix cc c.completionPrefix)

/-- `QCompleter::setCompletionPrefix`: the matches are filtered anew and the
current row is the first match, if there is one. -/
def setCompletionPrefix (cc : CharClass) (c : QCompleter) (completionPrefix : QString) :
    QCompleter :=
  let c := { c with completionPrefix := completionPrefix }
  { c with currentRow := if c.completionModel cc = [] then -1 else 0 }

/-- `popup->setCurrentIndex(m_completer->completionModel()->index(row, 0))`. -/
def setPopupCurrentIndex (cc : CharClass) (c : QCompleter) (row : Int) : QCompleter :=
  { c with popupCurrentRow :=
      if 0 ≤ row ∧ row < (c.completionModel cc).length then row else -1 }

/-- `popup->hide()`. -/
def hidePopup (c : QCompleter) : QCompleter :=
  { c with popupVisible := false }

/-- `QCompleter::complete(rect)` in popup mode: without a match the popup is
hidden, with one it is shown. -/
def complete (cc : CharClass) (c : QCompleter) : QCompleter :=
  if c.completionModel cc = [] then c.hidePopup else { c with popupVisible := true }

/-- `QCompleter::setCurrentRow`: the row is taken when it is a row of the
matches. -/
def setCurrentRow (cc : CharClass) (c : QCompleter) (row : Int) : QCompleter :=
  if row < 0 ∨ (c.completionModel cc).length ≤ row then c else { c with currentRow := row }

/-- `QCompleter::currentCompletion`: the name at the current row of the
matches, empty without a match. -/
def currentCompletion (cc : CharClass) (c : QCompleter) : QString :=
  if c.currentRow < 0 then [] else (c.completionModel cc).getD c.currentRow.toNat []

end QCompleter

/-- `QEvent::KeyPress`. -/
def QEvent.KeyPress : Nat := 6

/-- `Qt::Key_Escape`. -/
def Qt.Key_Escape : Int := 0x01000000

/-- `Qt::Key_Tab`. -/
def Qt.Key_Tab : Int := 0x01000001

/-- `Qt::Key_Backtab`. -/
def Qt.Key_Backtab : Int := 0x01000002

/-- `Qt::Key_Return`. -/
def Qt.Key_Return : Int := 0x01000004

/-- `Qt::Key_Enter`. -/
def Qt.Key_Enter : Int := 0x01000005

/-- An event delivered to the popup: its type and, for a key event, its key. -/
structure QEvent where
  type : Nat
  key : Int
  deriving DecidableEq, Repr

/-- The controller `CommandCompleter`: the host editor and the completer with
its popup. -/
structure CommandCompleter where
  m_editor : QPlainTextEdit
  m_completer : QCompleter
  deriving DecidableEq, Repr

namespace CommandCompleter

/-- `CommandCompleter::updateCompletion(forceShow)`. -/
def updateCompletion (cc : CharClass) (s : CommandCompleter) (forceShow : Bool) :
    CommandCompleter :=
  let completionPrefix := textUnderCursor cc s.m_editor
  if !forceShow && decide (completionPrefix.length < 3) then
    { s with m_completer := s.m_completer.hidePopup }
  else
    let c := s.m_completer
    let c :=
      if completionPrefix != c.completionPrefix then
        (c.setCompletionPrefix cc completionPrefix).setPopupCurrentIndex cc 0
      else c
    { s with m_completer := c.complete cc }

/-- `CommandCompleter::showCompletion`. -/
def showCompletion (cc : CharClass) (s : CommandCompleter) : CommandCompleter :=
  s.updateCompletion cc true

/-- `CommandCompleter::eventFilter`: whether the event is consumed, and the
controller after it.  The commit leaves the editor as `insertCompletion` does
and the popup hidden; the slots that the edit itself sets off (`textChanged`,
`cursorPositionChanged`) are transitions of their own. -/
def eventFilter (cc : CharClass) (s : CommandCompleter) (event : QEvent) :
    Bool × CommandCompleter :=
  if event.type ≠ QEvent.KeyPress then (false, s)
  else
    let key := event.key
    if key = Qt.Key_Enter ∨ key = Qt.Key_Return ∨ key = Qt.Key_Tab ∨ key = Qt.Key_Backtab then
      let c := s.m_completer.setCurrentRow cc s.m_completer.popupCurrentRow
      let m_editor := insertCompletion cc s.m_editor (c.currentCompletion cc)
      (true, { m_editor := m_editor, m_completer := c.hidePopup })
    else if key = Qt.Key_Escape then
      (true, { s with m_completer := s.m_completer.hidePopup })
    else (false, s)

end CommandCompleter

/-! ## The documentation table and the completion data model -/

/-- `CommandCompleterModel::ScriptableDocumentation`. -/
structure ScriptableDocumentation where
  tag : QString
  doc : QString
  deriving DecidableEq, Repr

/-- A `QHash<QString, ScriptableDocumentation>`: its entries, one for each key. -/
abbrev DocHash := List (QString × ScriptableDocumentation)

namespace DocHash

/-- `QHash::value(key)`: the entry of the key, default-constructed if there is
none. -/
def value (m : DocHash) (key : QString) : ScriptableDocumentation :=
  (m.lookup key).getD ⟨[], []⟩

/-- An update through `QHash::operator[]`: the entry of the key is changed in
place; a key without an entry gets a default-constructed one first. -/
def modify (m : DocHash) (key : QString)
    (f : ScriptableDocumentation → ScriptableDocumentation) : DocHash :=
  match m with
  | [] => [(key, f ⟨[], []⟩)]
  | (k, d) :: rest => if k = key then (k, f d) :: rest else (k, d) :: modify rest key f

/-- `QHash::keys`. -/
def keys (m : DocHash) : List QString := m.map Prod.fst

end DocHash

/-- The rows of the no-argument `CommandCompleterModel::addDocumentation`, in
the order of its calls: name, signature, description. -/
def scriptDocumentation : List (QString × QString × QString) :=
  [
    ("version", "String version()",
      "Returns version string."),
    ("help", "String help()",
      "Returns help string."),
    ("help", "String help(searchString, ...)",
      "Returns help for matched commands."),
    ("show", "show()",
      "Shows main window."),
    ("show", "show(tabName)",
      "Shows tab."),
    ("showAt", "showAt()",
      "Shows main window under mouse cursor."),
    ("showAt", "showAt(x, y, [width, height])",
      "Shows main window with given geometry."),
    ("showAt", "showAt(x, y, width, height, tabName)",
      "Shows tab with given geometry."),
    ("hide", "hide()",
      "Hides main window."),
    ("toggle", "bool toggle()",
      "Shows or hides main window."),
    ("menu", "menu()",
      "Opens context menu."),
    ("menu", "menu(tabName, [maxItemCount])",
      "Shows context menu for given tab."),
    ("exit", "exit()",
      "Exits server."),
    ("disable", "disable(), enable()",
      "Disables or enables clipboard content storing."),
    ("monitoring", "bool monitoring()",
      "Returns true only if clipboard storing is enabled."),
    ("visible", "bool visible()",
      "Available since v2.4.7."),
    ("focused", "bool focused()",
      "Available since v2.4.9."),
    ("filter", "filter(filterText)",
      "Available since v2.4.9."),
    ("ignore", "ignore()",
      "Ignores current clipboard content (used for automatic commands)."),
    ("clipboard", "ByteArray clipboard([mimeType])",
      "Returns clipboard data for MIME type (default is text)."),
    ("selection", "ByteArray selection([mimeType])",
      "Same as `clipboard()` for Linux/X11 mouse selection."),
    ("copy", "bool copy(text)",
      "Sets clipboard plain text."),
    ("copy", "bool copy(mimeType, data, [mimeType, data]...)",
      "Sets clipboard data."),
    ("copy", "bool copy()",
      "Sends `Ctrl+C` to current window."),
    ("copySelection", "ByteArray copySelection(...)",
      "Same as `copy(...)` for Linux/X11 mouse selection."),
    ("paste", "paste()",
      "Pastes current clipboard."),
    ("tab", "Array tab()",
      "Returns array of with tab names."),
    ("tab", "tab(tabName)",
      "Sets current tab for the script."),
    ("removeTab", "removeTab(tabName)",
      "Removes tab."),
    ("renameTab", "renameTab(tabName, newTabName)",
      "Renames tab."),
    ("tabIcon", "String tabIcon(tabName)",
      "Returns path to icon for tab."),
    ("tabIcon", "tabIcon(tabName, iconPath)",
      "Sets icon for tab."),
    ("count", "count(), length(), size()",
      "Returns amount of items in current tab."),
    ("select", "select(row)",
      "Copies item in the row to clipboard."),
    ("next", "next()",
      "Copies next item from current tab to clipboard."),
    ("previous", "previous()",
      "Copies previous item from current tab to clipboard."),
    ("add", "add(text, ...)",
      "Adds new text items to current tab."),
    ("insert", "insert(row, text)",
      "Inserts new text items to current tab."),
    ("remove", "remove(row, ...)",
      "Removes items in current tab."),
    ("edit", "edit([row|text] ...)",
      "Edits items in current tab."),
    ("read", "ByteArray read([mimeType]);",
      "Same as `clipboard()`."),
    ("read", "ByteArray read(mimeType, row, ...);",
      "Returns concatenated data from items."),
    ("write", "write(row, mimeType, data, [mimeType, data]...)",
      "Inserts new item to current tab."),
    ("change", "change(row, mimeType, data, [mimeType, data]...)",
      "Changes data in item in current tab."),
    ("separator", "String separator()",
      "Returns item separator (used when concatenating item data)."),
    ("separator", "separator(separator)",
      "Sets item separator for concatenating item data."),
    ("action", "action()",
      "Opens action dialog."),
    ("action", "action(row, ..., command, outputItemSeparator)",
      "Runs command for items in current tab."),
    ("popup", "popup(title, message, [time=8000])",
      "Shows popup message for given time in milliseconds."),
    ("exportTab", "exportTab(fileName)",
      "Exports current tab into file."),
    ("importTab", "importTab(fileName)",
      "Imports items from file to a new tab."),
    ("config", "String config()",
      "Returns help with list of available options."),
    ("config", "String config(optionName)",
      "Returns value of given option."),
    ("config", "String config(optionName, value)",
      "Sets option and returns new value."),
    ("config", "String config(optionName, value, ...)",
      "Sets multiple options and return list with values in format `optionName=newValue`."),
    ("info", "String info([pathName])",
      "Returns paths and flags used by the application."),
    ("eval", "Value eval(script)",
      "Evaluates script and returns result."),
    ("currentPath", "String currentPath([path])",
      "Get or set current path."),
    ("str", "String str(value)",
      "Converts a value to string."),
    ("input", "ByteArray input()",
      "Returns standard input passed to the script."),
    ("data", "ByteArray data(mimeType)",
      "Returns data for automatic commands or selected items."),
    ("setData", "ByteArray setData(mimeType, data)",
      "Modifies data for `data()` and new clipboard item."),
    ("removeData", "ByteArray removeData(mimeType)",
      "Removes data for `data()` and new clipboard item."),
    ("dataFormats", "Array dataFormats()",
      "Returns formats available for `data()`."),
    ("print", "print(value)",
      "Prints value to standard output."),
    ("abort", "abort()",
      "Aborts script evaluation."),
    ("fail", "fail()",
      "Aborts script evaluation with nonzero exit code."),
    ("setCurrentTab", "setCurrentTab(tabName)",
      "Focus tab without showing main window."),
    ("selectItems", "selectItems(row, ...)",
      "Selects items in current tab."),
    ("selectedTab", "String selectedTab()",
      "Returns tab that was selected when script was executed."),
    ("selectedItems", "[row, ...] selectedItems()",
      "Returns selected rows in current tab."),
    ("currentItem", "int currentItem(), int index()",
      "Returns current row in current tab."),
    ("escapeHtml", "String escapeHtml(text)",
      "Returns text with special HTML characters escaped."),
    ("unpack", "Item unpack(data)",
      "Returns deserialized object from serialized items."),
    ("pack", "ByteArray pack(item)",
      "Returns serialized item."),
    ("getItem", "Item getItem(row)",
      "Returns an item in current tab."),
    ("setItem", "setItem(row, item)",
      "Inserts item to current tab."),
    ("toBase64", "String toBase64(data)",
      "Returns base64-encoded data."),
    ("fromBase64", "ByteArray fromBase64(base64String)",
      "Returns base64-decoded data."),
    ("open", "QScriptValue open(url, ...)",
      "Tries to open URLs in appropriate applications."),
    ("execute", "FinishedCommand execute(argument, ..., null, stdinData, ...)",
      "Executes a command."),
    ("currentWindowTitle", "String currentWindowTitle()",
      "Returns window title of currently focused window."),
    ("dialog", "Value dialog(...)",
      "Shows messages or asks user for input."),
    ("settings", "Array settings()",
      "Returns array with names of all custom options."),
    ("settings", "Value settings(optionName)",
      "Returns value for an option."),
    ("settings", "settings(optionName)",
      "Sets value for a new option or overrides existing option."),
    ("dateString", "String dateString(format)",
      "Returns text representation of current date and time."),
    ("networkGet", "NetworkReply networkGet(url)",
      "Sends HTTP GET request."),
    ("networkPost", "NetworkReply networkPost(url, postData)",
      "Sends HTTP POST request."),
    ("env", "ByteArray env(name)",
      "Returns value of environment variable with given name."),
    ("setEnv", "bool setEnv(name, value)",
      "Sets environment variable with given name to given value."),
    ("sleep", "sleep(time)",
      "Wait for given time in milliseconds."),
    ("ByteArray", "ByteArray",
      "Wrapper for QByteArray Qt class."),
    ("File", "File",
      "Wrapper for QFile Qt class."),
    ("Dir", "Dir",
      "Wrapper for QDir Qt class."),
    ("TemporaryFile", "TemporaryFile",
      "Wrapper for QTemporaryFile Qt class."),
    ("arguments", "(Array)",
      "Array for accessing arguments passed to current function or the script"),
    ("Item", "(Object)",
      "Type is `Object` and each property is MIME type with data."),
    ("FinishedCommand", "(Object)",
      "Type is `Object` and properties are:"),
    ("NetworkReply", "(Object)",
      "Type is `Object` and properties are:"),
    ("mimeText", "(text/plain)",
      "Data contains plain text content."),
    ("mimeHtml", "(text/html)",
      "Data contains HTML content."),
    ("mimeUriList", "(text/uri-list)",
      "Data contains list of links to files, web pages etc."),
    ("mimeWindowTitle", "(application/x-copyq-owner-window-title)",
      "Current window title for copied clipboard."),
    ("mimeItems", "(application/x-copyq-item)",
      "Serialized items."),
    ("mimeItemNotes", "(application/x-copyq-item-notes)",
      "Data contains notes for item."),
    ("mimeOwner", "(application/x-copyq-owner)",
      "If available, the clipboard was set from CopyQ (from script or copied items)."),
    ("mimeClipboardMode", "(application/x-copyq-clipboard-mode)",
      "Contains `selection` if data is from X11 mouse selection."),
    ("mimeCurrentTab", "(application/x-copyq-current-tab)",
      "Current tab name when invoking command from main window."),
    ("mimeSelectedItems", "(application/x-copyq-selected-items)",
      "Selected items when invoking command from main window."),
    ("mimeCurrentItem", "(application/x-copyq-current-item)",
      "Current item when invoking command from main window."),
    ("mimeHidden", "(application/x-copyq-hidden)",
      "If set to `1`, the clipboard or item content will be hidden in GUI."),
    ("mimeShortcut", "(application/x-copyq-shortcut)",
      "Application or global shortcut which activated the command."),
    ("mimeColor", "(application/x-copyq-color)",
      "Item color (same as the one used by themes)."),
    ("mimeOutputTab", "(application/x-copyq-output-tab)",
      "Name of the tab where to store new item."),
    ("mimeSyncToClipboard", "(application/x-copyq-sync-to-selection)",
      "If exists the X11 selection data will be copied to clipboard."),
    ("mimeSyncToSelection", "(application/x-copyq-sync-to-clipboard)",
      "If exists the clipboard data will be copied to X11 selection.")
  ].map fun (name, api, documentation) => (name.toList, api.toList, documentation.toList)

/-- `Qt::DisplayRole`. -/
def Qt.DisplayRole : Int := 0

/-- `Qt::EditRole`. -/
def Qt.EditRole : Int := 2

/-- `Qt::ToolTipRole`. -/
def Qt.ToolTipRole : Int := 3

/-- `Qt::ForegroundRole`. -/
def Qt.ForegroundRole : Int := 9

/-- `Qt::gray`. -/
def Qt.gray : Nat := 5

/-- A `QVariant`, with the values the model returns. -/
inductive QVariant where
  | invalid
  | string (s : QString)
  | color (globalColor : Nat)
  deriving DecidableEq, Repr

/-- `QVariant::toString`. -/
def QVariant.toQString : QVariant → QString
  | .string s => s
  | _ => []

/-- A `QModelIndex`: row and column, both `-1` for the invalid index. -/
structure QModelIndex where
  row : Int
  column : Int
  deriving DecidableEq, Repr

/-- The model `CommandCompleterModel`: the string list of its base class
`QStringListModel` and the documentation table. -/
structure CommandCompleterModel where
  stringList : List QString
  m_doc : DocHash
  deriving DecidableEq, Repr

namespace CommandCompleterModel

/-- `scriptableCompletions`, on the four name lists of the syntax highlighter. -/
def scriptableCompletions (scriptableObjects scriptableProperties scriptableFunctions
    scriptableKeywords : List QString) : List QString :=
  scriptableObjects ++ scriptableProperties ++ scriptableFunctions ++ scriptableKeywords

/-- One pass of the constructor: `for (name : names) m_doc[name].tag = tag`. -/
def setTags (m_doc : DocHash) (names : List QString) (tag : QString) : DocHash :=
  names.foldl (fun m name => m.modify name fun d => { d with tag := tag }) m_doc

/-- `CommandCompleterModel::addDocumentation(name, api, documentation)`. -/
def addDocumentation (m_doc : DocHash) (name api documentation : QString) : DocHash :=
  m_doc.modify name fun d =>
    let doc := d.doc
    let doc := if !doc.isEmpty then doc ++ "\n".toList else doc
    { d with doc := doc ++ (api ++ "\n    ".toList ++ documentation) }

/-- The no-argument `CommandCompleterModel::addDocumentation`: the calls for the
rows of the table, in order. -/
def addDocumentationRows (m_doc : DocHash) (rows : List (QString × QString × QString)) :
    DocHash :=
  rows.foldl (fun m r => addDocumentation m r.1 r.2.1 r.2.2) m_doc

/-- The constructor `CommandCompleterModel::CommandCompleterModel`, on the four
name lists of the syntax highlighter and the rows of the documentation. -/
def new (scriptableObjects scriptableProperties scriptableFunctions scriptableKeywords :
    List QString) (rows : List (QString × QString × QString)) : CommandCompleterModel :=
  let m_doc : DocHash := []
  let m_doc := setTags m_doc scriptableObjects "t".toList
  let m_doc := setTags m_doc scriptableProperties "o".toList
  let m_doc := setTags m_doc scriptableFunctions "fn".toList
  let m_doc := setTags m_doc scriptableKeywords "k".toList
  let m_doc := addDocumentationRows m_doc rows
  { stringList := scriptableCompletions scriptableObjects scriptableProperties
      scriptableFunctions scriptableKeywords
    m_doc := m_doc }

/-- `QStringListModel::rowCount`. -/
def rowCount (m : CommandCompleterModel) : Nat := m.stringList.length

/-- `CommandCompleterModel::columnCount`. -/
def columnCount (_m : CommandCompleterModel) : Nat := 3

/-- `QAbstractListModel::index(row, column)`: the invalid index when the model
has no such row or column. -/
def index (m : CommandCompleterModel) (row column : Int) : QModelIndex :=
  if 0 ≤ row ∧ row < m.rowCount ∧ 0 ≤ column ∧ column < m.columnCount then ⟨row, column⟩
  else ⟨-1, -1⟩

/-- `QStringListModel::data`. -/
def stringListData (m : CommandCompleterModel) (index : QModelIndex) (role : Int) : QVariant :=
  if index.row < 0 ∨ m.stringList.length ≤ index.row then .invalid
  else if role = Qt.DisplayRole ∨ role = Qt.EditRole then
    .string (m.stringList.getD index.row.toNat [])
  else .invalid

/-- `CommandCompleterModel::documentationForRow`. -/
def documentationForRow (m : CommandCompleterModel) (row : Int) : ScriptableDocumentation :=
  let index2 := m.index row 0
  let text := (m.stringListData index2 Qt.EditRole).toQString
  m.m_doc.value text

/-- `CommandCompleterModel::typeForRow`. -/
def typeForRow (m : CommandCompleterModel) (row : Int) : QString :=
  let tagText := (m.documentationForRow row).tag
  match tagText with
  | [] => []
  | tag :: _ =>
    if tag = 'a' then "array".toList
    else if tag = 'k' then "keyword".toList
    else if tag = 'f' then "function".toList
    else if tag = 'o' then "object".toList
    else if tag = 't' then "type".toList
    else []

/-- `CommandCompleterModel::data`. -/
def data (m : CommandCompleterModel) (index : QModelIndex) (role : Int) : QVariant :=
  let row := index.row
  if index.column = 1 then
    if role = Qt.DisplayRole ∨ role = Qt.EditRole then .string (m.documentationForRow row).tag
    else if role = Qt.ForegroundRole then .color Qt.gray
    else .invalid
  else if index.column = 2 then
    if role = Qt.DisplayRole ∨ role = Qt.EditRole then .string (m.documentationForRow row).doc
    else .invalid
  else if role = Qt.ToolTipRole then .string (m.typeForRow row)
  else m.stringListData index role

end CommandCompleterModel


/-! ## The popup view -/

/-- A `QScrollBar`, as far as the popup reads it: whether it is visible, and
its width and height. -/
structure QScrollBar where
  isVisible : Bool
  width : Int
  height : Int
  deriving DecidableEq, Repr

/-- `QMargins`. -/
structure QMargins where
  left : Int
  top : Int
  right : Int
  bottom : Int
  deriving DecidableEq, Repr

/-- The item model set on a view, as far as the popup reads it: the numbers of
its rows and columns. -/
structure QAbstractItemModel where
  rowCount : Int
  columnCount : Int
  deriving DecidableEq, Repr

/-- The view `CommandCompleterPopup`: the model set on it, if any, the widths
of its columns and the heights of its rows as the table view reports them, its
two scroll bars, its contents margins and its size (width, height).  Sizes are
pixel counts, far inside the range of `int`. -/
structure CommandCompleterPopup where
  model : Option QAbstractItemModel
  columnWidth : Int → Int
  rowHeight : Int → Int
  verticalScrollBar : QScrollBar
  horizontalScrollBar : QScrollBar
  contentsMargins : QMargins
  size : Int × Int

namespace CommandCompleterPopup

/-- The loop `for (int i = 0; i < n; ++i) sum += f(i)`, started with `sum = 0`. -/
def sumBelow (f : Int → Int) (n : Int) : Int :=
  ((List.range n.toNat).map fun i => f (i : Int)).sum

/-- `CommandCompleterPopup::columnsWidth`, with the model at hand. -/
def columnsWidth (p : CommandCompleterPopup) (model : QAbstractItemModel) : Int :=
  sumBelow p.columnWidth model.columnCount

/-- `CommandCompleterPopup::rowsHeight`, with the model at hand. -/
def rowsHeight (p : CommandCompleterPopup) (model : QAbstractItemModel) (maxRows : Int) : Int :=
  sumBelow p.rowHeight (min maxRows model.rowCount)

/-- `QWidget::resize(w, h)`: the size asked for is the size of the popup. -/
def resize (p : CommandCompleterPopup) (w h : Int) : CommandCompleterPopup :=
  { p with size := (w, h) }

/-- `CommandCompleterPopup::timerEvent`. -/
def timerEvent (p : CommandCompleterPopup) : CommandCompleterPopup :=
  match p.model with
  | none => p
  | some model =>
    let margins := p.contentsMargins
    let w := p.columnsWidth model
      + (if p.verticalScrollBar.isVisible then p.verticalScrollBar.width else 0)
      + margins.left + margins.right
    let h := p.rowsHeight model 8
      + (if p.horizontalScrollBar.isVisible then p.verticalScrollBar.height else 0)
      + margins.top + margins.bottom
    p.resize w h

/-- The width of the popup as the specification words it: the widths of all
columns, the width of the vertical scroll bar when it is visible, and the left
and right margins. -/
def specWidth (p : CommandCompleterPopup) (model : QAbstractItemModel) : Int :=
  sumBelow p.columnWidth model.columnCount
    + (if p.verticalScrollBar.isVisible then p.verticalScrollBar.width else 0)
    + p.contentsMargins.left + p.contentsMargins.right

/-- The height of the popup as the specification words it: the heights of the
first `min(8, rowCount)` rows, the height of the horizontal scroll bar when it
is visible, and the top and bottom margins. -/
def specHeight (p : CommandCompleterPopup) (model : QAbstractItemModel) : Int :=
  sumBelow p.rowHeight (min 8 model.rowCount)
    + (if p.horizontalScrollBar.isVisible then p.horizontalScrollBar.height else 0)
    + p.contentsMargins.top + p.contentsMargins.bottom

end CommandCompleterPopup

/-- A popup with three rows of height 20 and three columns of width 100, no
margins, a hidden vertical scroll bar of the height of the view (60) and a
visible horizontal scroll bar of height 16. -/
def popupWithHorizontalScrollBar : CommandCompleterPopup where
  model := some ⟨3, 3⟩
  columnWidth := fun _ => 100
  rowHeight := fun _ => 20
  verticalScrollBar := ⟨false, 16, 60⟩
  horizontalScrollBar := ⟨true, 300, 16⟩
  contentsMargins := ⟨0, 0, 0, 0⟩
  size := (0, 0)

/-- The maximal run of word characters of the block that ends at position `p`. -/
def wordBefore (cc : CharClass) (text : QString) (p : Nat) : QString :=
  ((text.take p).reverse.takeWhile (fun c => inWord cc c && inBlock c)).reverse

/-- The maximal run of word characters of the block that starts at position `p`. -/
def wordAfter (cc : CharClass) (text : QString) (p : Nat) : QString :=
  (text.drop p).takeWhile (fun c => inWord cc c && inBlock c)

/-- The run of letters that ends right before position `p`: the completion
prefix as the glossary words it. -/
def lettersBefore (cc : CharClass) (text : QString) (p : Nat) : QString :=
  ((text.take p).reverse.takeWhile cc.isLetter).reverse

/-- The commit as a replacement of the word-under-cursor selection taken at the
cursor itself, without the step to the left. -/
def replaceWordUnderCursor (cc : CharClass) (m_editor : QPlainTextEdit) (completion : QString) :
    QPlainTextEdit :=
  let tc := m_editor.textCursor.select cc .WordUnderCursor
  m_editor.setTextCursor (tc.insertText completion)

/-- The entries of a name in the rows of the documentation, in order: signature,
line break, four blanks, description. -/
def docEntries (rows : List (QString × QString × QString)) (name : QString) : List QString :=
  (rows.filter fun r => r.1 = name).map fun r => r.2.1 ++ "\n    ".toList ++ r.2.2

/-- The tag of the first pass of the constructor that holds the name, in the
order objects, properties, functions, keywords; empty for a name of no pass. -/
def firstPassTag (objects properties functions keywords : List QString) (name : QString) :
    QString :=
  if name ∈ objects then "t".toList
  else if name ∈ properties then "o".toList
  else if name ∈ functions then "fn".toList
  else if name ∈ keywords then "k".toList
  else []

/-- The tag of the last pass of the constructor that holds the name; empty for
a name of no pass. -/
def lastPassTag (objects properties functions keywords : List QString) (name : QString) :
    QString :=
  if name ∈ keywords then "k".toList
  else if name ∈ functions then "fn".toList
  else if name ∈ properties then "o".toList
  else if name ∈ objects then "t".toList
  else []

/-- The category label of a tag, resolved from its first letter. -/
def categoryLabel (tag : QString) : QString :=
  match tag.head? with
  | some 'a' => "array".toList
  | some 'k' => "keyword".toList
  | some 'f' => "function".toList
  | some 'o' => "object".toList
  | some 't' => "type".toList
  | _ => []

/-! ## Theorems -/

/-! ### Lists: runs at the end of a list -/

theorem takeWhile_dropWhile_nil {α : Type} (f : α → Bool) (l : List α) :
    (l.dropWhile f).takeWhile f = [] := by
  induction l with
  | nil => rfl
  | cons a l ih =>
    by_cases h : f a = true
    · simpa [List.dropWhile_cons_of_pos h] using ih
    · simp [List.dropWhile_cons_of_neg h, List.takeWhile_cons_of_neg h]

theorem dropWhile_eq_self_of_takeWhile_nil {α : Type} (f : α → Bool) (l : List α)
    (h : l.takeWhile f = []) : l.dropWhile f = l := by
  have := List.takeWhile_append_dropWhile f l
  rw [h] at this
  simpa using this

theorem takeWhile_and {α : Type} (f g : α → Bool) (l : List α) :
    l.takeWhile (fun c => f c && g c) = (l.takeWhile g).takeWhile f := by
  induction l with
  | nil => rfl
  | cons a l ih =>
    cases hg : g a <;> cases hf : f a <;> simp [List.takeWhile_cons, hg, hf, ih]

/-! ### Blocks -/

theorem blockBefore_eq (text P0 X Y : QString) (p : Nat) (ht : text = P0 ++ X ++ Y)
    (hp : p = P0.length + X.length) (hP0 : P0.reverse.takeWhile inBlock = [])
    (hX : ∀ x ∈ X, inBlock x = true) : blockBefore text p = X := by
  subst ht hp
  have h1 : (P0 ++ X ++ Y).take (P0.length + X.length) = P0 ++ X := by
    rw [← List.length_append]; exact List.take_left' rfl
  unfold blockBefore
  rw [h1, List.reverse_append, List.takeWhile_append_of_pos (by simpa using hX), hP0]
  simp

theorem blockAfter_eq (text Z Y T0 : QString) (p : Nat) (ht : text = Z ++ Y ++ T0)
    (hp : p = Z.length) (hT0 : T0.takeWhile inBlock = [])
    (hY : ∀ x ∈ Y, inBlock x = true) : blockAfter text p = Y := by
  subst ht hp
  unfold blockAfter
  rw [List.append_assoc, List.drop_left' rfl, List.takeWhile_append_of_pos hY, hT0]
  simp

theorem length_blockBefore_le (text : QString) (p : Nat) : (blockBefore text p).length ≤ p := by
  unfold blockBefore
  rw [List.length_reverse]
  calc ((text.take p).reverse.takeWhile inBlock).length
      ≤ (text.take p).reverse.length := (List.takeWhile_sublist _).length_le
    _ ≤ p := by simp

theorem previousCursorPosition_skipCharacters (cc : CharClass) (text : QString) (p : Nat) :
    previousCursorPosition cc text p .SkipCharacters = p - 1 := by
  have hle := length_blockBefore_le text p
  unfold previousCursorPosition
  by_cases h0 : p = 0
  · simp [h0]
  · simp only [h0, if_false]
    by_cases hs : p = blockPosition text p
    · rw [if_pos hs, ← hs]
    · rw [if_neg hs]
      unfold blockPosition at hs ⊢
      have hb : (blockBefore text p).length ≠ 0 := by omega
      have hlen : p - (blockBefore text p).length ≤ p := Nat.sub_le _ _
      simp only [layoutPreviousCursorPosition, blockText, List.length_append]
      rw [if_neg (by omega)]
      omega

theorem previousCursorPosition_skipWords (cc : CharClass) (text P0 X Y T0 : QString) (p : Nat)
    (ht : text = P0 ++ X ++ Y ++ T0) (hp : p = P0.length + X.length)
    (hP0 : P0.reverse.takeWhile inBlock = []) (hT0 : T0.takeWhile inBlock = [])
    (hX : ∀ x ∈ X, inBlock x = true) (hY : ∀ x ∈ Y, inBlock x = true) (hne : X ≠ []) :
    previousCursorPosition cc text p .SkipWords = P0.length + skipWordsBack cc X.reverse := by
  have hb : blockBefore text p = X :=
    blockBefore_eq text P0 X (Y ++ T0) p (by simp [ht]) hp hP0 hX
  have ha : blockAfter text p = Y :=
    blockAfter_eq text (P0 ++ X) Y T0 p (by simp [ht]) (by simp [hp]) hT0 hY
  have hlen : 0 < X.length := List.length_pos.mpr hne
  unfold previousCursorPosition
  rw [if_neg (by omega)]
  simp only [blockPosition, blockText, hb, ha]
  rw [if_neg (by omega)]
  simp only [layoutPreviousCursorPosition, List.length_append]
  rw [if_neg (by omega)]
  have h1 : (X ++ Y).take (p - (p - X.length)) = X := by
    have : p - (p - X.length) = X.length := by omega
    rw [this]; exact List.take_left' rfl
  rw [h1]; omega

theorem newPosition_startOfWord (cc : CharClass) (text P0 X Y T0 : QString) (p a : Nat)
    (ht : text = P0 ++ X ++ Y ++ T0) (hp : p = P0.length + X.length)
    (hP0 : P0.reverse.takeWhile inBlock = []) (hT0 : T0.takeWhile inBlock = [])
    (hX : ∀ x ∈ X, inBlock x = true) (hY : ∀ x ∈ Y, inBlock x = true) :
    QTextCursor.newPosition cc ⟨text, p, a⟩ .StartOfWord =
      if X = [] then some p
      else if Y = [] then
        (if (cc.isSpace (X.getLastD nullChar) || atWordSeparator (X.getLastD nullChar)) = true
          then none
          else some (P0.length + skipWordsBack cc X.reverse))
      else some (P0.length + skipWordsBack cc (Y.headD nullChar :: X.reverse)) := by
  have hb : blockBefore text p = X :=
    blockBefore_eq text P0 X (Y ++ T0) p (by simp [ht]) hp hP0 hX
  have ha : blockAfter text p = Y :=
    blockAfter_eq text (P0 ++ X) Y T0 p (by simp [ht]) (by simp [hp]) hT0 hY
  simp only [QTextCursor.newPosition, hb, ha, List.length_eq_zero]
  by_cases hX0 : X = []
  · simp [hX0]
  · rw [if_neg hX0, if_neg hX0]
    cases Y with
    | nil =>
      simp only [true_and, ne_eq, not_true_eq_false, if_false, if_true]
      split
      · rfl
      · rw [previousCursorPosition_skipWords cc text P0 X [] T0 p ht hp hP0 hT0 hX hY hX0]
    | cons y Y =>
      simp only [reduceCtorEq, false_and, if_false, ne_eq, not_false_eq_true, if_true]
      have hy : inBlock y = true := hY y (List.mem_cons_self _ _)
      rw [previousCursorPosition_skipWords cc text P0 (X ++ [y]) Y T0 (p + 1)
        (by simp [ht]) (by simp [hp]; omega) hP0 hT0
        (by intro x hx; rcases List.mem_append.mp hx with h | h
            · exact hX x h
            · simp at h; rw [h]; exact hy)
        (fun x hx => hY x (List.mem_cons_of_mem _ hx)) (by simp)]
      simp

theorem newPosition_endOfWord (cc : CharClass) (text Z Y T0 : QString) (p a : Nat)
    (ht : text = Z ++ Y ++ T0) (hp : p = Z.length)
    (hT0 : T0.takeWhile inBlock = []) (hY : ∀ x ∈ Y, inBlock x = true) :
    QTextCursor.newPosition cc ⟨text, p, a⟩ .EndOfWord =
      if Y = [] then none else some (p + endOfWordAdvance cc Y) := by
  have ha : blockAfter text p = Y := blockAfter_eq text Z Y T0 p ht hp hT0 hY
  simp only [QTextCursor.newPosition, ha]

/-! ### The word loops -/

theorem inWord_iff (cc : CharClass) (c : Char) :
    inWord cc c = true ↔ cc.isSpace c = false ∧ atWordSeparator c = false := by
  simp [inWord]

theorem skipWordsBack_of_inWord (cc : CharClass) (c : Char) (r : QString)
    (hc : inWord cc c = true) :
    skipWordsBack cc (c :: r) = (r.dropWhile (inWord cc)).length := by
  obtain ⟨h1, h2⟩ := (inWord_iff cc c).mp hc
  simp [skipWordsBack, h1, h2, hc]

theorem skipWordsBack_of_isSpace (cc : CharClass) (c : Char) (r : QString)
    (hc : cc.isSpace c = true) : skipWordsBack cc (c :: r) = skipWordsBack cc r := by
  simp [skipWordsBack, hc]

theorem skipWordsBack_of_separator (cc : CharClass) (c : Char) (r : QString)
    (h1 : cc.isSpace c = false) (h2 : atWordSeparator c = true) :
    skipWordsBack cc (c :: r) = (r.dropWhile atWordSeparator).length := by
  simp [skipWordsBack, h1, h2]

theorem endOfWordAdvance_of_not_separator (cc : CharClass) (c : Char) (r : QString)
    (hc : atWordSeparator c = false) :
    endOfWordAdvance cc (c :: r) = ((c :: r).takeWhile (inWord cc)).length := by
  simp [endOfWordAdvance, hc]

theorem endOfWordAdvance_of_separator (cc : CharClass) (c : Char) (r : QString)
    (hc : atWordSeparator c = true) :
    endOfWordAdvance cc (c :: r) = ((c :: r).takeWhile atWordSeparator).length := by
  simp [endOfWordAdvance, hc, List.takeWhile_cons_of_pos, Nat.add_comm]

theorem endOfWordAdvance_of_head (cc : CharClass) (Y : QString) (y : Char)
    (hy : Y.head? = some y) (hs : atWordSeparator y = false) :
    endOfWordAdvance cc Y = (Y.takeWhile (inWord cc)).length := by
  cases Y with
  | nil => simp at hy
  | cons c r =>
    simp only [List.head?_cons, Option.some.injEq] at hy
    subst hy
    exact endOfWordAdvance_of_not_separator cc c r hs

theorem movePosition_left (cc : CharClass) (text : QString) (p a : Nat) :
    QTextCursor.movePosition cc ⟨text, p, a⟩ .Left .MoveAnchor = ⟨text, p - 1, p - 1⟩ := by
  simp [QTextCursor.movePosition, QTextCursor.newPosition, previousCursorPosition_skipCharacters]

theorem skipWordsBack_cut (cc : CharClass) (PB W : QString) (c : Char)
    (hPBw : PB.reverse.takeWhile (inWord cc) = [])
    (hW : ∀ x ∈ W, inWord cc x = true ∧ inBlock x = true) (hc : inWord cc c = true) :
    skipWordsBack cc (c :: (W.reverse ++ PB.reverse)) = PB.length := by
  rw [skipWordsBack_of_inWord cc c _ hc,
    List.dropWhile_append_of_pos (by intro x hx; exact (hW x (List.mem_reverse.mp hx)).1),
    dropWhile_eq_self_of_takeWhile_nil _ _ hPBw, List.length_reverse]

theorem newPosition_endOfWord_cut (cc : CharClass) (P0 PB W V TB T0 : QString) (c : Char)
    (a : Nat)
    (hW : ∀ x ∈ W, inWord cc x = true ∧ inBlock x = true)
    (hc : inWord cc c = true ∧ inBlock c = true)
    (hV : ∀ x ∈ V, inWord cc x = true ∧ inBlock x = true)
    (hTB : ∀ x ∈ TB, inBlock x = true) (hTBw : TB.takeWhile (inWord cc) = [])
    (hT0 : T0.takeWhile inBlock = []) :
    QTextCursor.newPosition cc
      ⟨P0 ++ PB ++ W ++ [c] ++ V ++ TB ++ T0, P0.length + PB.length, a⟩ .EndOfWord
        = some (P0.length + PB.length + (W.length + 1 + V.length)) := by
  rw [newPosition_endOfWord cc _ (P0 ++ PB) (W ++ [c] ++ V ++ TB) T0 _ _ (by simp) (by simp)
    hT0 (by
      intro x hx
      simp only [List.mem_append, List.mem_singleton] at hx
      rcases hx with ((h | h) | h) | h
      · exact (hW x h).2
      · rw [h]; exact hc.2
      · exact (hV x h).2
      · exact hTB x h)]
  have htake : (W ++ [c] ++ V ++ TB).takeWhile (inWord cc) = W ++ [c] ++ V := by
    rw [List.takeWhile_append_of_pos (by
      intro x hx
      simp only [List.mem_append, List.mem_singleton] at hx
      rcases hx with (h | h) | h
      · exact (hW x h).1
      · rw [h]; exact hc.1
      · exact (hV x h).1), hTBw]
    simp
  have hadv : endOfWordAdvance cc (W ++ [c] ++ V ++ TB) = W.length + 1 + V.length := by
    cases W with
    | nil =>
      rw [endOfWordAdvance_of_head cc _ c (by simp) ((inWord_iff cc c).mp hc.1).2, htake]
      simp; omega
    | cons w W =>
      have hw := hW w (List.mem_cons_self _ _)
      rw [endOfWordAdvance_of_head cc _ w (by simp) ((inWord_iff cc w).mp hw.1).2, htake]
      simp; omega
  rw [if_neg (by simp), hadv]

theorem take_cut (P0 PB W V TB T0 : QString) (c : Char) :
    (P0 ++ PB ++ W ++ [c] ++ V ++ TB ++ T0).take (P0.length + PB.length) = P0 ++ PB := by
  rw [← List.length_append]
  simp only [List.append_assoc]
  rw [← List.append_assoc]
  exact List.take_left' rfl

theorem drop_cut (P0 PB W V TB T0 : QString) (c : Char) :
    (P0 ++ PB ++ W ++ [c] ++ V ++ TB ++ T0).drop (P0.length + PB.length) =
      W ++ [c] ++ V ++ TB ++ T0 := by
  rw [← List.length_append]
  simp only [List.append_assoc]
  rw [← List.append_assoc]
  exact List.drop_left' rfl

theorem take_word_cut (W V TB T0 : QString) (c : Char) :
    (W ++ [c] ++ V ++ TB ++ T0).take (W.length + 1 + V.length) = W ++ [c] ++ V := by
  have : W ++ [c] ++ V ++ TB ++ T0 = (W ++ [c] ++ V) ++ (TB ++ T0) := by simp
  rw [this]
  exact List.take_left' (by simp; omega)

theorem drop_cut_cursor (P0 PB W V TB T0 : QString) (c : Char) :
    (P0 ++ PB ++ W ++ [c] ++ V ++ TB ++ T0).drop (P0.length + PB.length + W.length + 1) =
      V ++ TB ++ T0 := by
  have : P0 ++ PB ++ W ++ [c] ++ V ++ TB ++ T0 = (P0 ++ PB ++ W ++ [c]) ++ (V ++ TB ++ T0) := by
    simp
  rw [this]
  exact List.drop_left' (by simp; omega)

/-- The commit on a text cut at its word and block borders: `P0` ends at a
block border, `PB` is the part of the block before the word, `W ++ [c]` the
word characters before the cursor, `V` the word characters after it, `TB` the
rest of the block and `T0` the text from the next block border on. -/
theorem insertCompletion_cut (cc : CharClass) (P0 PB W V TB T0 N : QString) (c : Char)
    (hP0 : P0.reverse.takeWhile inBlock = []) (hPB : ∀ x ∈ PB, inBlock x = true)
    (hPBw : PB.reverse.takeWhile (inWord cc) = [])
    (hW : ∀ x ∈ W, inWord cc x = true ∧ inBlock x = true)
    (hc : inWord cc c = true ∧ inBlock c = true)
    (hV : ∀ x ∈ V, inWord cc x = true ∧ inBlock x = true)
    (hTB : ∀ x ∈ TB, inBlock x = true) (hTBw : TB.takeWhile (inWord cc) = [])
    (hT0 : T0.takeWhile inBlock = []) :
    insertCompletion cc
        ⟨P0 ++ PB ++ W ++ [c] ++ V ++ TB ++ T0, P0.length + PB.length + W.length + 1⟩ N
      = ⟨P0 ++ PB ++ N ++ TB ++ T0, P0.length + PB.length + N.length⟩ := by
  have hblock : ∀ x ∈ c :: (V ++ TB), inBlock x = true := by
    intro x hx
    rcases List.mem_cons.mp hx with h | h
    · rw [h]; exact hc.2
    · rcases List.mem_append.mp h with h | h
      · exact (hV x h).2
      · exact hTB x h
  -- StartOfWord, one step to the left of the cursor
  have hstart : QTextCursor.newPosition cc
      ⟨P0 ++ PB ++ W ++ [c] ++ V ++ TB ++ T0, P0.length + PB.length + W.length,
        P0.length + PB.length + W.length⟩ .StartOfWord = some (P0.length + PB.length) := by
    rw [newPosition_startOfWord cc _ P0 (PB ++ W) (c :: (V ++ TB)) T0 _ _ (by simp)
      (by simp; omega) hP0 hT0
      (by intro x hx; rcases List.mem_append.mp hx with h | h
          · exact hPB x h
          · exact (hW x h).2) hblock]
    by_cases hX : PB ++ W = []
    · obtain ⟨h1, h2⟩ := List.append_eq_nil.mp hX
      simp [h1, h2]
    · rw [if_neg hX, if_neg (by simp)]
      simp only [List.reverse_append, List.headD_cons]
      rw [skipWordsBack_cut cc PB W c hPBw hW hc.1]
  have hend := newPosition_endOfWord_cut cc P0 PB W V TB T0 c (P0.length + PB.length)
    hW hc hV hTB hTBw hT0
  unfold insertCompletion
  simp only [QPlainTextEdit.textCursor, movePosition_left, Nat.add_sub_cancel]
  simp only [QTextCursor.movePosition, hstart, hend]
  simp only [QPlainTextEdit.setTextCursor, QTextCursor.insertText, QTextCursor.selectionStart,
    QTextCursor.selectionEnd]
  have hmin : min (P0.length + PB.length + (W.length + 1 + V.length)) (P0.length + PB.length)
      = P0.length + PB.length := by omega
  have hmax : max (P0.length + PB.length + (W.length + 1 + V.length)) (P0.length + PB.length)
      = P0.length + PB.length + (W.length + 1 + V.length) := by omega
  rw [hmin, hmax]
  have ht := take_cut P0 PB W V TB T0 c
  have hd : (P0 ++ PB ++ W ++ [c] ++ V ++ TB ++ T0).drop
      (P0.length + PB.length + (W.length + 1 + V.length)) = TB ++ T0 := by
    have : P0 ++ PB ++ W ++ [c] ++ V ++ TB ++ T0 = (P0 ++ PB ++ W ++ [c] ++ V) ++ (TB ++ T0) := by
      simp
    rw [this]
    exact List.drop_left' (by simp; omega)
  rw [ht, hd]
  simp

theorem reverse_takeWhile_append_dropWhile {α : Type} (f : α → Bool) (l : List α) :
    (l.reverse.dropWhile f).reverse ++ (l.reverse.takeWhile f).reverse = l := by
  rw [← List.reverse_append, List.takeWhile_append_dropWhile, List.reverse_reverse]

/-- Every text whose cursor stands right after a word character of a block is
cut at its word and block borders as `insertCompletion_cut` asks. -/
theorem exists_cut (cc : CharClass) (text : QString) (p : Nat) (h0 : 0 < p)
    (hp : p ≤ text.length) (hw : inWord cc (characterAt text ((p : Int) - 1)) = true)
    (hb : inBlock (characterAt text ((p : Int) - 1)) = true) :
    ∃ (P0 PB W V TB T0 : QString) (c : Char),
      text = P0 ++ PB ++ W ++ [c] ++ V ++ TB ++ T0 ∧
      p = P0.length + PB.length + W.length + 1 ∧
      c = characterAt text ((p : Int) - 1) ∧
      P0.reverse.takeWhile inBlock = [] ∧ (∀ x ∈ PB, inBlock x = true) ∧
      PB.reverse.takeWhile (inWord cc) = [] ∧
      (∀ x ∈ W, inWord cc x = true ∧ inBlock x = true) ∧
      (∀ x ∈ V, inWord cc x = true ∧ inBlock x = true) ∧
      (∀ x ∈ TB, inBlock x = true) ∧ TB.takeWhile (inWord cc) = [] ∧
      T0.takeWhile inBlock = [] ∧
      wordBefore cc text p = W ++ [c] ∧ wordAfter cc text p = V := by
  obtain ⟨q, rfl⟩ : ∃ q, p = q + 1 := ⟨p - 1, by omega⟩
  have hq : q < text.length := by omega
  have hchar : characterAt text (((q + 1 : Nat) : Int) - 1) = text[q] := by
    have : ((q + 1 : Nat) : Int) - 1 = (q : Int) := by push_cast; ring
    rw [this]
    simp [characterAt, List.getD_eq_getElem?_getD, List.getElem?_eq_getElem hq]
  rw [hchar] at hw hb ⊢
  let word : Char → Bool := fun c => inWord cc c && inBlock c
  have hword : ∀ x, word x = true ↔ inWord cc x = true ∧ inBlock x = true := by
    intro x; simp [word]
  let L := text.take q
  let R := text.drop (q + 1)
  have htext : text = L ++ [text[q]] ++ R := by
    have h1 : text.take (q + 1) = L ++ [text[q]] := by
      simp only [L]
      rw [List.take_succ, List.getElem?_eq_getElem hq]; rfl
    rw [← h1]; exact (List.take_append_drop (q + 1) text).symm
  have hLlen : L.length = q := by simp [L]; omega
  let P := (L.reverse.dropWhile word).reverse
  let W := (L.reverse.takeWhile word).reverse
  have hL : L = P ++ W := (reverse_takeWhile_append_dropWhile word L).symm
  let P0 := (P.reverse.dropWhile inBlock).reverse
  let PB := (P.reverse.takeWhile inBlock).reverse
  have hP : P = P0 ++ PB := (reverse_takeWhile_append_dropWhile inBlock P).symm
  let V := R.takeWhile word
  let T := R.dropWhile word
  have hR : R = V ++ T := (List.takeWhile_append_dropWhile word R).symm
  let TB := T.takeWhile inBlock
  let T0 := T.dropWhile inBlock
  have hT : T = TB ++ T0 := (List.takeWhile_append_dropWhile inBlock T).symm
  have hfull : text = P0 ++ PB ++ W ++ [text[q]] ++ V ++ TB ++ T0 := by
    calc text = L ++ [text[q]] ++ R := htext
      _ = (P0 ++ PB ++ W) ++ [text[q]] ++ (V ++ (TB ++ T0)) := by rw [hL, hP, hR, hT]
      _ = _ := by simp
  have hlen : q = P0.length + PB.length + W.length := by
    rw [← hLlen, hL, hP]; simp [Nat.add_assoc]
  refine ⟨P0, PB, W, V, TB, T0, text[q], hfull, by omega, rfl, ?_, ?_, ?_, ?_, ?_, ?_, ?_, ?_, ?_, ?_⟩
  · simp only [P0, List.reverse_reverse]; exact takeWhile_dropWhile_nil _ _
  · intro x hx
    simp only [PB, List.mem_reverse] at hx
    exact List.mem_takeWhile_imp hx
  · simp only [PB, P, List.reverse_reverse]
    have := takeWhile_and (inWord cc) inBlock (L.reverse.dropWhile word)
    rw [← this]; exact takeWhile_dropWhile_nil _ _
  · intro x hx
    simp only [W, List.mem_reverse] at hx
    exact (hword x).mp (List.mem_takeWhile_imp hx)
  · intro x hx
    exact (hword x).mp (List.mem_takeWhile_imp hx)
  · intro x hx
    exact List.mem_takeWhile_imp hx
  · simp only [TB, T]
    have := takeWhile_and (inWord cc) inBlock (R.dropWhile word)
    rw [← this]; exact takeWhile_dropWhile_nil _ _
  · simp only [T0]; exact takeWhile_dropWhile_nil _ _
  · unfold wordBefore
    have h1 : text.take (q + 1) = L ++ [text[q]] := by
      simp only [L]
      rw [List.take_succ, List.getElem?_eq_getElem hq]; rfl
    rw [h1, List.reverse_append]
    have hx : word text[q] = true := (hword _).mpr ⟨hw, hb⟩
    simp only [List.reverse_singleton, List.singleton_append]
    rw [List.takeWhile_cons_of_pos hx]
    simp [W]
  · rfl

/-! ### Bounds of the word movements -/

theorem length_dropWhile_le {α : Type} (f : α → Bool) (l : List α) :
    (l.dropWhile f).length ≤ l.length :=
  (List.dropWhile_sublist f).length_le

theorem skipWordsBack_lt (cc : CharClass) (r : QString) (hr : r ≠ []) :
    skipWordsBack cc r < r.length := by
  have hpos : 0 < r.length := List.length_pos.mpr hr
  have hle := length_dropWhile_le cc.isSpace r
  unfold skipWordsBack
  cases hr' : r.dropWhile cc.isSpace with
  | nil => simpa using hpos
  | cons c t =>
    rw [hr'] at hle
    simp only [List.length_cons] at hle
    have hsp : cc.isSpace c = false := by
      have := List.head_dropWhile_not cc.isSpace r (by rw [hr']; simp)
      simpa [hr'] using this
    by_cases hs : atWordSeparator c = true
    · simp only [hs, if_true, List.dropWhile_cons_of_pos hs]
      have := length_dropWhile_le atWordSeparator t
      omega
    · have hw : inWord cc c = true := by simp [inWord, hsp, hs]
      simp only [hs, List.dropWhile_cons_of_pos hw]
      have := length_dropWhile_le (inWord cc) t
      simp only [Bool.false_eq_true, if_false]
      omega

theorem previousCursorPosition_skipWords_lt (cc : CharClass) (text : QString) (x : Nat)
    (hx : 0 < x) : previousCursorPosition cc text x .SkipWords < x := by
  have hle := length_blockBefore_le text x
  unfold previousCursorPosition
  rw [if_neg (by omega)]
  by_cases hs : x = blockPosition text x
  · rw [if_pos hs, ← hs]; omega
  · rw [if_neg hs]
    unfold blockPosition at hs ⊢
    have hb : (blockBefore text x).length ≠ 0 := by omega
    simp only [layoutPreviousCursorPosition, blockText, List.length_append]
    rw [if_neg (by omega)]
    have h1 : (blockBefore text x ++ blockAfter text x).take
        (x - (x - (blockBefore text x).length)) = blockBefore text x := by
      have : x - (x - (blockBefore text x).length) = (blockBefore text x).length := by omega
      rw [this]; exact List.take_left' rfl
    rw [h1]
    have := skipWordsBack_lt cc (blockBefore text x).reverse
      (by intro h; apply hb; simpa using congrArg List.length h)
    simp only [List.length_reverse] at this
    omega

theorem newPosition_startOfWord_le (cc : CharClass) (text : QString) (q a s : Nat)
    (h : QTextCursor.newPosition cc ⟨text, q, a⟩ .StartOfWord = some s) : s ≤ q := by
  simp only [QTextCursor.newPosition] at h
  split at h
  · simp only [Option.some.injEq] at h; omega
  · split at h
    · simp at h
    · simp only [Option.some.injEq] at h
      by_cases ha : blockAfter text q = []
      · simp only [ha, ne_eq, not_true_eq_false, if_false] at h
        by_cases hq : q = 0
        · subst hq; simp [previousCursorPosition] at h; omega
        · have := previousCursorPosition_skipWords_lt cc text q (by omega)
          omega
      · simp only [ne_eq, ha, not_false_eq_true, if_true] at h
        have := previousCursorPosition_skipWords_lt cc text (q + 1) (by omega)
        omega

theorem endOfWordAdvance_le (cc : CharClass) (after : QString) :
    endOfWordAdvance cc after ≤ after.length := by
  cases after with
  | nil => simp [endOfWordAdvance]
  | cons c r =>
    by_cases hs : atWordSeparator c = true
    · rw [endOfWordAdvance_of_separator cc c r hs]
      exact (List.takeWhile_sublist _).length_le
    · rw [endOfWordAdvance_of_not_separator cc c r (by simpa using hs)]
      exact (List.takeWhile_sublist _).length_le

theorem length_blockAfter_le (text : QString) (p : Nat) :
    (blockAfter text p).length ≤ text.length - p := by
  unfold blockAfter
  calc ((text.drop p).takeWhile inBlock).length
      ≤ (text.drop p).length := (List.takeWhile_sublist _).length_le
    _ = text.length - p := by simp

theorem newPosition_endOfWord_bounds (cc : CharClass) (text : QString) (s a e : Nat)
    (h : QTextCursor.newPosition cc ⟨text, s, a⟩ .EndOfWord = some e) :
    s ≤ e ∧ e ≤ text.length := by
  simp only [QTextCursor.newPosition] at h
  split at h
  · simp at h
  · rename_i hne
    simp only [Option.some.injEq] at h
    have h1 := endOfWordAdvance_le cc (blockAfter text s)
    have h2 := length_blockAfter_le text s
    have h3 : 0 < (blockAfter text s).length := List.length_pos.mpr hne
    omega

/-- The commit replaces one range of the text, which starts at or before the
cursor, and leaves the cursor after the inserted text. -/
theorem insertCompletion_range (cc : CharClass) (text N : QString) (p : Nat)
    (hp : p ≤ text.length) :
    ∃ s e, s ≤ p ∧ s ≤ e ∧ e ≤ text.length ∧
      insertCompletion cc ⟨text, p⟩ N = ⟨text.take s ++ N ++ text.drop e, s + N.length⟩ := by
  unfold insertCompletion
  simp only [QPlainTextEdit.textCursor, movePosition_left]
  have key : ∀ s, s ≤ p →
      ∃ s' e, s' ≤ p ∧ s' ≤ e ∧ e ≤ text.length ∧
        QPlainTextEdit.setTextCursor ⟨text, p⟩
          ((QTextCursor.movePosition cc ⟨text, s, s⟩ .EndOfWord .KeepAnchor).insertText N)
          = ⟨text.take s' ++ N ++ text.drop e, s' + N.length⟩ := by
    intro s hs
    cases he : QTextCursor.newPosition cc ⟨text, s, s⟩ .EndOfWord with
    | none =>
      refine ⟨s, s, hs, le_refl _, by omega, ?_⟩
      simp [QTextCursor.movePosition, he, QPlainTextEdit.setTextCursor, QTextCursor.insertText,
        QTextCursor.selectionStart, QTextCursor.selectionEnd]
    | some e =>
      obtain ⟨h1, h2⟩ := newPosition_endOfWord_bounds cc text s s e he
      refine ⟨s, e, hs, h1, h2, ?_⟩
      simp [QTextCursor.movePosition, he, QPlainTextEdit.setTextCursor, QTextCursor.insertText,
        QTextCursor.selectionStart, QTextCursor.selectionEnd, Nat.min_eq_right h1,
        Nat.max_eq_left h1]
  cases hs : QTextCursor.newPosition cc ⟨text, p - 1, p - 1⟩ .StartOfWord with
  | none =>
    simp only [QTextCursor.movePosition, hs]
    exact key (p - 1) (Nat.sub_le _ _)
  | some s =>
    have := newPosition_startOfWord_le cc text (p - 1) (p - 1) s hs
    simp only [QTextCursor.movePosition, hs]
    exact key s (by omega)

/-! ### The word-under-cursor selection -/

theorem take_length_takeWhile_append {α : Type} (f : α → Bool) (l r : List α) :
    (l ++ r).take (l.takeWhile f).length = l.takeWhile f := by
  have h : l ++ r = l.takeWhile f ++ (l.dropWhile f ++ r) := by
    rw [← List.append_assoc, List.takeWhile_append_dropWhile]
  rw [h]
  exact List.take_left' rfl

/-- The word-under-cursor selection on a text cut at its word and block borders,
with the cursor right after the word character `c`. -/
theorem selectedText_select_cut (cc : CharClass) (P0 PB W V TB T0 : QString) (c : Char)
    (a : Nat)
    (hP0 : P0.reverse.takeWhile inBlock = []) (hPB : ∀ x ∈ PB, inBlock x = true)
    (hPBw : PB.reverse.takeWhile (inWord cc) = [])
    (hW : ∀ x ∈ W, inWord cc x = true ∧ inBlock x = true)
    (hc : inWord cc c = true ∧ inBlock c = true)
    (hV : ∀ x ∈ V, inWord cc x = true ∧ inBlock x = true)
    (hTB : ∀ x ∈ TB, inBlock x = true) (hTBw : TB.takeWhile (inWord cc) = [])
    (hT0 : T0.takeWhile inBlock = []) :
    (QTextCursor.select cc
        ⟨P0 ++ PB ++ W ++ [c] ++ V ++ TB ++ T0, P0.length + PB.length + W.length + 1, a⟩
        .WordUnderCursor).selectedText
      = if ((V ++ TB).head?.any fun y => !cc.isSpace y && atWordSeparator y) = true
        then TB.takeWhile atWordSeparator else W ++ [c] ++ V := by
  obtain ⟨hc1, hc2⟩ := (inWord_iff cc c).mp hc.1
  have hXb : ∀ x ∈ PB ++ W ++ [c], inBlock x = true := by
    intro x hx
    simp only [List.mem_append, List.mem_singleton] at hx
    rcases hx with (h | h) | h
    · exact hPB x h
    · exact (hW x h).2
    · rw [h]; exact hc.2
  have hYb : ∀ x ∈ V ++ TB, inBlock x = true := by
    intro x hx
    rcases List.mem_append.mp hx with h | h
    · exact (hV x h).2
    · exact hTB x h
  have hback : skipWordsBack cc (c :: (W.reverse ++ PB.reverse)) = PB.length :=
    skipWordsBack_cut cc PB W c hPBw hW hc.1
  have hstart := newPosition_startOfWord cc (P0 ++ PB ++ W ++ [c] ++ V ++ TB ++ T0) P0
    (PB ++ W ++ [c]) (V ++ TB) T0 (P0.length + PB.length + W.length + 1)
    (P0.length + PB.length + W.length + 1) (by simp) (by simp; omega) hP0 hT0 hXb hYb
  rw [if_neg (by simp)] at hstart
  simp only [List.reverse_append, List.reverse_singleton, List.singleton_append,
    List.getLastD_concat] at hstart
  simp only [QTextCursor.select, QTextCursor.clearSelection, QTextCursor.movePosition]
  cases hY : V ++ TB with
  | nil =>
    obtain ⟨hV0, hTB0⟩ := List.append_eq_nil.mp hY
    rw [if_pos hY] at hstart
    simp only [hc1, hc2, Bool.or_self, Bool.false_eq_true, if_false, hback] at hstart
    have hend := newPosition_endOfWord_cut cc P0 PB W V TB T0 c (P0.length + PB.length)
      hW hc hV hTB hTBw hT0
    simp only [hstart, hend, QTextCursor.selectedText, QTextCursor.selectionStart,
      QTextCursor.selectionEnd]
    rw [Nat.min_eq_right (by omega), Nat.max_eq_left (by omega), drop_cut,
      Nat.add_sub_cancel_left, take_word_cut]
    simp
  | cons y Y =>
    rw [if_neg (by simp [hY]), hY] at hstart
    simp only [List.headD_cons] at hstart
    by_cases hcond : (!cc.isSpace y && atWordSeparator y) = true
    · -- the cursor stands before a word separator
      simp only [Bool.and_eq_true, Bool.not_eq_true'] at hcond
      have hV0 : V = [] := by
        cases V with
        | nil => rfl
        | cons v V =>
          simp only [List.cons_append, List.cons.injEq] at hY
          have := (inWord_iff cc v).mp (hV v (List.mem_cons_self _ _)).1
          rw [hY.1] at this
          rw [this.2] at hcond
          simp at hcond
      subst hV0
      simp only [List.nil_append] at hY
      rw [skipWordsBack_of_separator cc y _ hcond.1 hcond.2,
        List.dropWhile_cons_of_neg (by simp [hc2])] at hstart
      simp only [List.length_cons, List.length_append, List.length_reverse] at hstart
      have hpos : P0.length + (W.length + PB.length + 1) = P0.length + PB.length + W.length + 1 := by
        omega
      rw [hpos] at hstart
      have hend := newPosition_endOfWord cc (P0 ++ PB ++ W ++ [c] ++ [] ++ TB ++ T0)
        (P0 ++ PB ++ W ++ [c]) TB T0 (P0.length + PB.length + W.length + 1)
        (P0.length + PB.length + W.length + 1) (by simp) (by simp; omega) hT0 hTB
      rw [if_neg (by simp [hY])] at hend
      have hadv : endOfWordAdvance cc TB = (TB.takeWhile atWordSeparator).length := by
        rw [hY]; exact endOfWordAdvance_of_separator cc y Y hcond.2
      simp only [hstart, hend, hadv, QTextCursor.selectedText, QTextCursor.selectionStart,
        QTextCursor.selectionEnd]
      rw [Nat.min_eq_right (by omega), Nat.max_eq_left (by omega), drop_cut_cursor]
      simp only [Nat.add_sub_cancel_left, List.nil_append, List.head?_cons, Option.any_some,
        hcond.1, hcond.2, Bool.not_false, Bool.and_self, if_true, hY]
      rw [← hY]
      exact take_length_takeWhile_append _ _ _
    · -- the cursor stands inside or at the end of the word
      have hsb : skipWordsBack cc (y :: c :: (W.reverse ++ PB.reverse)) = PB.length := by
        by_cases hy : inWord cc y = true
        · rw [skipWordsBack_of_inWord cc y _ hy, ← hback, skipWordsBack_of_inWord cc c _ hc.1,
            List.dropWhile_cons_of_pos hc.1]
        · have hsp : cc.isSpace y = true := by
            simp only [inWord, Bool.and_eq_true, Bool.not_eq_true', not_and,
              Bool.not_eq_false] at hy
            simp only [Bool.and_eq_true, Bool.not_eq_true', not_and, Bool.not_eq_true] at hcond
            cases h : cc.isSpace y
            · have h1 := hy h
              have h2 := hcond h
              rw [h1] at h2; simp at h2
            · rfl
          rw [skipWordsBack_of_isSpace cc y _ hsp, hback]
      rw [hsb] at hstart
      have hend := newPosition_endOfWord_cut cc P0 PB W V TB T0 c (P0.length + PB.length)
        hW hc hV hTB hTBw hT0
      simp only [hstart, hend, QTextCursor.selectedText, QTextCursor.selectionStart,
        QTextCursor.selectionEnd]
      rw [Nat.min_eq_right (by omega), Nat.max_eq_left (by omega), drop_cut,
        Nat.add_sub_cancel_left, take_word_cut]
      simp only [List.head?_cons, Option.any_some, hcond, Bool.false_eq_true, if_false]

theorem atWordSeparator_of_not_inBlock (x : Char) (h : inBlock x = false) :
    atWordSeparator x = false := by
  have hx : x = paragraphSeparator := by simpa [inBlock] using h
  rw [hx]; decide

theorem takeWhile_atWordSeparator_nil (T0 : QString) (hT0 : T0.takeWhile inBlock = []) :
    T0.takeWhile atWordSeparator = [] := by
  cases T0 with
  | nil => rfl
  | cons t T =>
    have ht : inBlock t = false := by
      cases h : inBlock t
      · rfl
      · rw [List.takeWhile_cons_of_pos h] at hT0; simp at hT0
    rw [List.takeWhile_cons_of_neg (by simp [atWordSeparator_of_not_inBlock t ht])]

theorem takeWhile_append_of_nil {α : Type} (f : α → Bool) (l r : List α)
    (h : r.takeWhile f = []) : (l ++ r).takeWhile f = l.takeWhile f := by
  induction l with
  | nil => simpa using h
  | cons a l ih =>
    by_cases ha : f a = true
    · simp [List.takeWhile_cons_of_pos ha, ih]
    · simp [List.takeWhile_cons_of_neg ha]

theorem head_any_cut (cc : CharClass) (Y T0 : QString) (hT0 : T0.takeWhile inBlock = []) :
    ((Y ++ T0).head?.any fun y => !cc.isSpace y && atWordSeparator y)
      = (Y.head?.any fun y => !cc.isSpace y && atWordSeparator y) := by
  cases Y with
  | cons y Y => rfl
  | nil =>
    cases T0 with
    | nil => rfl
    | cons t T =>
      have ht : inBlock t = false := by
        cases h : inBlock t
        · rfl
        · rw [List.takeWhile_cons_of_pos h] at hT0; simp at hT0
      simp [atWordSeparator_of_not_inBlock t ht]

/-- The prefix on a text cut at its word and block borders, in terms of the
text that follows the cursor. -/
theorem selectedText_select_cut_after (cc : CharClass) (P0 PB W V TB T0 : QString) (c : Char)
    (a : Nat)
    (hP0 : P0.reverse.takeWhile inBlock = []) (hPB : ∀ x ∈ PB, inBlock x = true)
    (hPBw : PB.reverse.takeWhile (inWord cc) = [])
    (hW : ∀ x ∈ W, inWord cc x = true ∧ inBlock x = true)
    (hc : inWord cc c = true ∧ inBlock c = true)
    (hV : ∀ x ∈ V, inWord cc x = true ∧ inBlock x = true)
    (hTB : ∀ x ∈ TB, inBlock x = true) (hTBw : TB.takeWhile (inWord cc) = [])
    (hT0 : T0.takeWhile inBlock = []) :
    (QTextCursor.select cc
        ⟨P0 ++ PB ++ W ++ [c] ++ V ++ TB ++ T0, P0.length + PB.length + W.length + 1, a⟩
        .WordUnderCursor).selectedText
      = if ((V ++ TB ++ T0).head?.any fun y => !cc.isSpace y && atWordSeparator y) = true
        then (V ++ TB ++ T0).takeWhile atWordSeparator else W ++ [c] ++ V := by
  rw [selectedText_select_cut cc P0 PB W V TB T0 c a hP0 hPB hPBw hW hc hV hTB hTBw hT0,
    head_any_cut cc (V ++ TB) T0 hT0]
  by_cases hcond : ((V ++ TB).head?.any fun y => !cc.isSpace y && atWordSeparator y) = true
  · rw [if_pos hcond, if_pos hcond]
    have hV0 : V = [] := by
      cases V with
      | nil => rfl
      | cons v V =>
        have := (inWord_iff cc v).mp (hV v (List.mem_cons_self _ _)).1
        simp [this.2] at hcond
    subst hV0
    rw [List.nil_append, takeWhile_append_of_nil _ _ _ (takeWhile_atWordSeparator_nil T0 hT0)]
  · rw [if_neg hcond, if_neg hcond]

/-! ### The commit and the prefix -/

/-- C1, as stated, fails: in `foo bar` with the cursor before `bar` the
word-under-cursor selection is `bar`, and the commit replaces `foo`. -/
theorem insertCompletion_not_word_under_cursor :
    ((QPlainTextEdit.textCursor ⟨"foo bar".toList, 4⟩).select asciiClass
        .WordUnderCursor).selectedText = "bar".toList ∧
    replaceWordUnderCursor asciiClass ⟨"foo bar".toList, 4⟩ "clipboard".toList
      = ⟨"foo clipboard".toList, 13⟩ ∧
    insertCompletion asciiClass ⟨"foo bar".toList, 4⟩ "clipboard".toList
      = ⟨"clipboard bar".toList, 9⟩ ∧
    insertCompletion asciiClass ⟨"foo bar".toList, 4⟩ "clipboard".toList
      ≠ replaceWordUnderCursor asciiClass ⟨"foo bar".toList, 4⟩ "clipboard".toList := by
  decide

theorem movePosition_document (cc : CharClass) (tc : QTextCursor) (op : MoveOperation)
    (mode : MoveMode) : (tc.movePosition cc op mode).document = tc.document := by
  unfold QTextCursor.movePosition
  cases tc.newPosition cc op with
  | none => rfl
  | some q => cases mode <;> rfl

theorem select_document (cc : CharClass) (tc : QTextCursor) :
    (tc.select cc .WordUnderCursor).document = tc.document := by
  simp only [QTextCursor.select, movePosition_document, QTextCursor.clearSelection]

/-- The commit is the replacement of the word-under-cursor selection taken one
character to the left of the cursor. -/
theorem insertCompletion_eq_replaceWordUnderCursor (cc : CharClass) (text N : QString)
    (p : Nat) :
    insertCompletion cc ⟨text, p⟩ N = replaceWordUnderCursor cc ⟨text, p - 1⟩ N := by
  simp only [insertCompletion, replaceWordUnderCursor, QPlainTextEdit.textCursor,
    movePosition_left, QTextCursor.select, QTextCursor.clearSelection,
    QPlainTextEdit.setTextCursor]

/-- The word-under-cursor selection taken at a position `q` starts at or before
`q` and ends inside the text. -/
theorem select_bounds (cc : CharClass) (text : QString) (q : Nat) (hq : q ≤ text.length) :
    (QTextCursor.select cc ⟨text, q, q⟩ .WordUnderCursor).selectionStart ≤ q ∧
    (QTextCursor.select cc ⟨text, q, q⟩ .WordUnderCursor).selectionStart
      ≤ (QTextCursor.select cc ⟨text, q, q⟩ .WordUnderCursor).selectionEnd ∧
    (QTextCursor.select cc ⟨text, q, q⟩ .WordUnderCursor).selectionEnd ≤ text.length := by
  have key : ∀ s, s ≤ q →
      (QTextCursor.movePosition cc ⟨text, s, s⟩ .EndOfWord .KeepAnchor).selectionStart ≤ q ∧
      (QTextCursor.movePosition cc ⟨text, s, s⟩ .EndOfWord .KeepAnchor).selectionStart
        ≤ (QTextCursor.movePosition cc ⟨text, s, s⟩ .EndOfWord .KeepAnchor).selectionEnd ∧
      (QTextCursor.movePosition cc ⟨text, s, s⟩ .EndOfWord .KeepAnchor).selectionEnd
        ≤ text.length := by
    intro s hs
    cases he : QTextCursor.newPosition cc ⟨text, s, s⟩ .EndOfWord with
    | none =>
      simp only [QTextCursor.movePosition, he, QTextCursor.selectionStart,
        QTextCursor.selectionEnd]
      omega
    | some e =>
      obtain ⟨h1, h2⟩ := newPosition_endOfWord_bounds cc text s s e he
      simp only [QTextCursor.movePosition, he, QTextCursor.selectionStart,
        QTextCursor.selectionEnd]
      omega
  simp only [QTextCursor.select, QTextCursor.clearSelection]
  cases hs : QTextCursor.newPosition cc ⟨text, q, q⟩ .StartOfWord with
  | none =>
    simp only [QTextCursor.movePosition, hs]
    exact key q (le_refl _)
  | some s =>
    have := newPosition_startOfWord_le cc text q q s hs
    simp only [QTextCursor.movePosition, hs]
    exact key s this

/-- C1, amended: for every text, cursor position `p` and name `N` the commit
replaces one range of the text with `N`, leaves the text outside the range
unchanged and leaves the cursor right after `N`.  At every position the range is
the word-under-cursor selection taken one character to the left of the cursor,
at `p - 1`: it runs from the start to the end of that selection, starts at or
before the cursor and ends inside the text.  When the character before the
cursor is a word character of the block (neither white space nor a word
separator, as every letter is), the range is the whole word around the cursor:
its word characters before and after the cursor. -/
theorem insertCompletion_replaces_word (cc : CharClass) (text N : QString) (p : Nat)
    (hp : p ≤ text.length) :
    insertCompletion cc ⟨text, p⟩ N = replaceWordUnderCursor cc ⟨text, p - 1⟩ N ∧
    insertCompletion cc ⟨text, p⟩ N =
      ⟨text.take ((QPlainTextEdit.textCursor ⟨text, p - 1⟩).select cc
            .WordUnderCursor).selectionStart ++ N
          ++ text.drop ((QPlainTextEdit.textCursor ⟨text, p - 1⟩).select cc
            .WordUnderCursor).selectionEnd,
        ((QPlainTextEdit.textCursor ⟨text, p - 1⟩).select cc
            .WordUnderCursor).selectionStart + N.length⟩ ∧
    (((QPlainTextEdit.textCursor ⟨text, p - 1⟩).select cc .WordUnderCursor).selectionStart ≤ p ∧
      ((QPlainTextEdit.textCursor ⟨text, p - 1⟩).select cc .WordUnderCursor).selectionStart
        ≤ ((QPlainTextEdit.textCursor ⟨text, p - 1⟩).select cc .WordUnderCursor).selectionEnd ∧
      ((QPlainTextEdit.textCursor ⟨text, p - 1⟩).select cc .WordUnderCursor).selectionEnd
        ≤ text.length) ∧
    (∃ s e, s ≤ p ∧ s ≤ e ∧ e ≤ text.length ∧
      insertCompletion cc ⟨text, p⟩ N = ⟨text.take s ++ N ++ text.drop e, s + N.length⟩) ∧
    (0 < p → inWord cc (characterAt text ((p : Int) - 1)) = true →
      inBlock (characterAt text ((p : Int) - 1)) = true →
      insertCompletion cc ⟨text, p⟩ N =
        ⟨text.take (p - (wordBefore cc text p).length) ++ N
            ++ text.drop (p + (wordAfter cc text p).length),
          p - (wordBefore cc text p).length + N.length⟩) := by
  have hdoc := select_document cc ⟨text, p - 1, p - 1⟩
  have hbd := select_bounds cc text (p - 1) (by omega)
  refine ⟨insertCompletion_eq_replaceWordUnderCursor cc text N p, ?_, ?_,
    insertCompletion_range cc text N p hp, ?_⟩
  · rw [insertCompletion_eq_replaceWordUnderCursor]
    simp only [replaceWordUnderCursor, QPlainTextEdit.textCursor, QPlainTextEdit.setTextCursor,
      QTextCursor.insertText, hdoc]
  · simp only [QPlainTextEdit.textCursor]
    exact ⟨by omega, hbd.2.1, hbd.2.2⟩
  · intro h0 hw hb
    obtain ⟨P0, PB, W, V, TB, T0, c, ht, hpos, -, hP0, hPB, hPBw, hW, hV, hTB, hTBw, hT0, hwb, hwa⟩ :=
      exists_cut cc text p h0 hp hw hb
    have hc : inWord cc c = true ∧ inBlock c = true := by
      have hmem : c ∈ wordBefore cc text p := by rw [hwb]; simp
      unfold wordBefore at hmem
      have := List.mem_takeWhile_imp (List.mem_reverse.mp hmem)
      simpa using this
    rw [hwb, hwa]
    subst ht hpos
    rw [insertCompletion_cut cc P0 PB W V TB T0 N c hP0 hPB hPBw hW hc hV hTB hTBw hT0]
    have h1 : P0.length + PB.length + W.length + 1 - (W ++ [c]).length = P0.length + PB.length := by
      simp
    have h2 : (P0 ++ PB ++ W ++ [c] ++ V ++ TB ++ T0).drop
        (P0.length + PB.length + W.length + 1 + V.length) = TB ++ T0 := by
      have : P0 ++ PB ++ W ++ [c] ++ V ++ TB ++ T0 = (P0 ++ PB ++ W ++ [c] ++ V) ++ (TB ++ T0) := by
        simp
      rw [this]
      exact List.drop_left' (by simp; omega)
    rw [h1, h2, take_cut]
    simp

/-- C1, the witness of the claim: `cli` with the cursor at its end and the name
`clipboard` give `clipboard` with the cursor at position 9; and in `foo bar`
with the cursor before `bar` the range is the selection taken at position 3,
the word `foo`. -/
theorem insertCompletion_replaces_word_witness :
    insertCompletion asciiClass ⟨"cli".toList, 3⟩ "clipboard".toList
      = ⟨"clipboard".toList, 9⟩ ∧
    insertCompletion asciiClass ⟨"foo bar".toList, 4⟩ "clipboard".toList
      = ⟨"clipboard bar".toList, 9⟩ :=
  ⟨((insertCompletion_replaces_word asciiClass "cli".toList "clipboard".toList 3
      (by decide)).2.2.2.2 (by decide) (by decide) (by decide)).trans (by decide),
   ((insertCompletion_replaces_word asciiClass "foo bar".toList "clipboard".toList 4
      (by decide)).2.1).trans (by decide)⟩

/-- C2, as stated, fails: with the cursor inside `clipboard`, after `cli`, the
prefix is the whole word and holds the characters after the cursor; and in
`ab1` the prefix holds the digit. -/
theorem textUnderCursor_not_letters_before_cursor :
    lettersBefore asciiClass "clipboard".toList 3 = "cli".toList ∧
    textUnderCursor asciiClass ⟨"clipboard".toList, 3⟩ = "clipboard".toList ∧
    textUnderCursor asciiClass ⟨"clipboard".toList, 3⟩
      ≠ lettersBefore asciiClass "clipboard".toList 3 ∧
    textUnderCursor asciiClass ⟨"ab1".toList, 2⟩ = "ab1".toList := by
  decide

/-- C2, amended: for every text and cursor position the prefix is empty when
the character before the cursor is not a letter; otherwise it is the word under
the cursor: the run of word characters of the block (characters that are neither
white space nor word separators, letters or not) that ends at the cursor
followed by the run that starts at the cursor, except that right before a word
separator it is the run of separators that follows the cursor. -/
theorem textUnderCursor_eq_word_under_cursor (cc : CharClass) (text : QString) (p : Nat)
    (hp : p ≤ text.length) :
    textUnderCursor cc ⟨text, p⟩ =
      if cc.isLetter (characterAt text ((p : Int) - 1)) = true then
        if ((text.drop p).head?.any fun y => !cc.isSpace y && atWordSeparator y) = true then
          (text.drop p).takeWhile atWordSeparator
        else wordBefore cc text p ++ wordAfter cc text p
      else [] := by
  unfold textUnderCursor
  simp only [QPlainTextEdit.textCursor]
  by_cases hl : cc.isLetter (characterAt text ((p : Int) - 1)) = true
  · have h0 : 0 < p := by
      rcases Nat.eq_zero_or_pos p with h | h
      · subst h
        have : characterAt text (((0 : Nat) : Int) - 1) = nullChar := by simp [characterAt]
        rw [this, cc.isLetter_null] at hl
        exact absurd hl (by decide)
      · exact h
    have hw : inWord cc (characterAt text ((p : Int) - 1)) = true :=
      (inWord_iff cc _).mpr ⟨cc.isLetter_not_isSpace _ hl, cc.isLetter_not_atWordSeparator _ hl⟩
    have hb : inBlock (characterAt text ((p : Int) - 1)) = true := by
      cases h : inBlock (characterAt text ((p : Int) - 1))
      · have hx : characterAt text ((p : Int) - 1) = paragraphSeparator := by
          simpa [inBlock] using h
        rw [hx, cc.isLetter_paragraphSeparator] at hl
        exact absurd hl (by decide)
      · rfl
    obtain ⟨P0, PB, W, V, TB, T0, c, ht, hpos, hcc, hP0, hPB, hPBw, hW, hV, hTB, hTBw, hT0,
      hwb, hwa⟩ := exists_cut cc text p h0 hp hw hb
    rw [← hcc] at hw hb
    rw [if_pos hl, hwb, hwa]
    simp only [hl, Bool.not_true, Bool.false_eq_true, if_false]
    subst ht hpos
    rw [selectedText_select_cut_after cc P0 PB W V TB T0 c _ hP0 hPB hPBw hW ⟨hw, hb⟩ hV hTB
      hTBw hT0, drop_cut_cursor]
  · rw [if_neg hl]
    simp only [Bool.not_eq_true] at hl
    simp [hl]

/-- C2, amended, at work: after `cli` inside `clipboard` the prefix is the whole
word. -/
theorem textUnderCursor_eq_word_under_cursor_witness :
    textUnderCursor asciiClass ⟨"clipboard".toList, 3⟩ = "clipboard".toList :=
  (textUnderCursor_eq_word_under_cursor asciiClass "clipboard".toList 3 (by decide)).trans
    (by decide)

/-- C3: when the cursor is at the start of the document, or the character right
before the cursor is not a letter, the prefix is empty, whatever follows the
cursor. -/
theorem textUnderCursor_empty (cc : CharClass) (text : QString) (p : Nat)
    (h : p = 0 ∨ ∀ c, text[p - 1]? = some c → cc.isLetter c = false) :
    textUnderCursor cc ⟨text, p⟩ = [] := by
  have hl : cc.isLetter (characterAt text ((p : Int) - 1)) = false := by
    rcases Nat.eq_zero_or_pos p with h0 | h0
    · subst h0
      have : characterAt text (((0 : Nat) : Int) - 1) = nullChar := by simp [characterAt]
      rw [this]; exact cc.isLetter_null
    · have hh := h.resolve_left (by omega)
      have hi : ((p : Int) - 1) = ((p - 1 : Nat) : Int) := by omega
      rw [hi]
      simp only [characterAt, Int.natCast_nonneg, if_true, Int.toNat_ofNat]
      cases hg : text[p - 1]? with
      | none => simp [List.getD_eq_getElem?_getD, hg, cc.isLetter_null]
      | some c => simp [List.getD_eq_getElem?_getD, hg, hh c hg]
  simp [textUnderCursor, QPlainTextEdit.textCursor, hl]

/-- C3 at work: at the start of `clipboard`, and after the blank of `cl ip`
with letters following, the prefix is empty. -/
theorem textUnderCursor_empty_witness :
    textUnderCursor asciiClass ⟨"clipboard".toList, 0⟩ = [] ∧
    textUnderCursor asciiClass ⟨"cl ip".toList, 3⟩ = [] :=
  ⟨textUnderCursor_empty asciiClass "clipboard".toList 0 (Or.inl rfl),
   textUnderCursor_empty asciiClass "cl ip".toList 3
    (Or.inr (by intro c hc; simp at hc; subst hc; decide))⟩

/-! ### The popup and the keys -/

/-- C4: whenever the computed prefix has fewer than 3 characters,
`updateCompletion` without force-show ends with the popup hidden, whatever its
visibility before, and leaves the editor as it is. -/
theorem updateCompletion_hides_short (cc : CharClass) (s : CommandCompleter)
    (h : (textUnderCursor cc s.m_editor).length < 3) :
    (s.updateCompletion cc false).m_completer.popupVisible = false ∧
    (s.updateCompletion cc false).m_editor = s.m_editor := by
  simp [CommandCompleter.updateCompletion, h, QCompleter.hidePopup]

/-- C4 at work: the text `cl` with the cursor at its end and a visible popup
leaves no popup. -/
theorem updateCompletion_hides_short_witness :
    (CommandCompleter.updateCompletion asciiClass
      ⟨⟨"cl".toList, 2⟩, ⟨["clipboard".toList], [], 0, true, 0⟩⟩ false).m_completer.popupVisible
      = false :=
  (updateCompletion_hides_short asciiClass
    ⟨⟨"cl".toList, 2⟩, ⟨["clipboard".toList], [], 0, true, 0⟩⟩ (by decide)).1

/-- C5: `eventFilter` consumes an event if and only if it is a key press of
Enter, Return, Tab, Backtab or Escape; every other event leaves the controller
as it is: the visibility of the popup and the text of the editor with it. -/
theorem eventFilter_consumes_iff (cc : CharClass) (s : CommandCompleter) (event : QEvent) :
    ((CommandCompleter.eventFilter cc s event).1 = true ↔
      (event.type = QEvent.KeyPress ∧
        (event.key = Qt.Key_Enter ∨ event.key = Qt.Key_Return ∨ event.key = Qt.Key_Tab ∨
          event.key = Qt.Key_Backtab ∨ event.key = Qt.Key_Escape))) ∧
    ((CommandCompleter.eventFilter cc s event).1 = false →
      (CommandCompleter.eventFilter cc s event).2 = s) := by
  unfold CommandCompleter.eventFilter
  by_cases ht : event.type = QEvent.KeyPress
  · by_cases hk : event.key = Qt.Key_Enter ∨ event.key = Qt.Key_Return ∨
        event.key = Qt.Key_Tab ∨ event.key = Qt.Key_Backtab
    · simp only [ht, ne_eq, not_true_eq_false, if_false, hk, if_true, true_and]
      refine ⟨⟨fun _ => ?_, fun _ => trivial⟩, fun h => absurd h (by simp)⟩
      rcases hk with h | h | h | h
      · exact Or.inl h
      · exact Or.inr (Or.inl h)
      · exact Or.inr (Or.inr (Or.inl h))
      · exact Or.inr (Or.inr (Or.inr (Or.inl h)))
    · simp only [ht, ne_eq, not_true_eq_false, if_false, hk, true_and]
      by_cases he : event.key = Qt.Key_Escape
      · simp only [he, if_true, true_iff]
        exact ⟨Or.inr (Or.inr (Or.inr (Or.inr trivial))), fun h => absurd h (by simp)⟩
      · simp only [he, if_false, Bool.false_eq_true, false_iff, forall_const, and_true]
        intro h
        rcases h with h | h | h | h | h
        · exact hk (Or.inl h)
        · exact hk (Or.inr (Or.inl h))
        · exact hk (Or.inr (Or.inr (Or.inl h)))
        · exact hk (Or.inr (Or.inr (Or.inr h)))
        · exact h
  · simp [ht]

/-- C5 at work: a press of the Down key (`Qt::Key_Down`) is not consumed and
leaves the visible popup and the text `cli` as they are. -/
theorem eventFilter_consumes_iff_witness :
    (CommandCompleter.eventFilter asciiClass
      ⟨⟨"cli".toList, 3⟩, ⟨["clipboard".toList], "cli".toList, 0, true, 0⟩⟩
      ⟨QEvent.KeyPress, 0x01000015⟩).2
      = ⟨⟨"cli".toList, 3⟩, ⟨["clipboard".toList], "cli".toList, 0, true, 0⟩⟩ :=
  (eventFilter_consumes_iff asciiClass
    ⟨⟨"cli".toList, 3⟩, ⟨["clipboard".toList], "cli".toList, 0, true, 0⟩⟩
    ⟨QEvent.KeyPress, 0x01000015⟩).2 (by decide)

/-! ### The documentation table -/

theorem value_modify_self (m : DocHash) (key : QString)
    (f : ScriptableDocumentation → ScriptableDocumentation) :
    (m.modify key f).value key = f (m.value key) := by
  induction m with
  | nil => simp [DocHash.modify, DocHash.value, List.lookup]
  | cons kd rest ih =>
    obtain ⟨k, d⟩ := kd
    by_cases h : k = key
    · subst h
      simp [DocHash.modify, DocHash.value, List.lookup]
    · have h' : (key == k) = false := by simpa using fun e => h e.symm
      simp only [DocHash.value] at ih
      simp [DocHash.modify, DocHash.value, List.lookup, h, h', ih]

theorem value_modify_of_ne (m : DocHash) (key other : QString)
    (f : ScriptableDocumentation → ScriptableDocumentation) (hne : other ≠ key) :
    (m.modify key f).value other = m.value other := by
  induction m with
  | nil =>
    have h' : (other == key) = false := by simpa using hne
    simp [DocHash.modify, DocHash.value, List.lookup, h']
  | cons kd rest ih =>
    obtain ⟨k, d⟩ := kd
    by_cases h : k = key
    · subst h
      have h' : (other == k) = false := by simpa using hne
      simp [DocHash.modify, DocHash.value, List.lookup, h']
    · simp only [DocHash.value] at ih
      by_cases h2 : other = k
      · subst h2
        simp [DocHash.modify, DocHash.value, List.lookup, h]
      · have h' : (other == k) = false := by simpa using h2
        simp [DocHash.modify, DocHash.value, List.lookup, h, h', ih]

theorem keys_modify (m : DocHash) (key : QString)
    (f : ScriptableDocumentation → ScriptableDocumentation) :
    (m.modify key f).keys = if key ∈ m.keys then m.keys else m.keys ++ [key] := by
  induction m with
  | nil => simp [DocHash.modify, DocHash.keys]
  | cons kd rest ih =>
    obtain ⟨k, d⟩ := kd
    simp only [DocHash.keys] at ih
    by_cases h : k = key
    · subst h
      simp only [DocHash.modify, DocHash.keys, if_true, List.map_cons, List.mem_cons, true_or]
    · have h' : ¬ key = k := fun e => h e.symm
      simp only [DocHash.modify, DocHash.keys, if_neg h, List.map_cons, List.mem_cons, h',
        false_or]
      rw [ih]
      by_cases hm : key ∈ List.map Prod.fst rest
      · rw [if_pos hm, if_pos hm]
      · rw [if_neg hm, if_neg hm]; rfl

theorem mem_keys_modify (m : DocHash) (key x : QString)
    (f : ScriptableDocumentation → ScriptableDocumentation) :
    x ∈ (m.modify key f).keys ↔ x ∈ m.keys ∨ x = key := by
  rw [keys_modify]
  by_cases h : key ∈ m.keys
  · rw [if_pos h]
    constructor
    · exact Or.inl
    · rintro (h1 | h1)
      · exact h1
      · rw [h1]; exact h
  · rw [if_neg h]; simp

theorem nodup_keys_modify (m : DocHash) (key : QString)
    (f : ScriptableDocumentation → ScriptableDocumentation) (hm : m.keys.Nodup) :
    (m.modify key f).keys.Nodup := by
  rw [keys_modify]
  by_cases h : key ∈ m.keys
  · rw [if_pos h]; exact hm
  · rw [if_neg h]
    exact List.Nodup.append hm (List.nodup_singleton key) (by simpa using h)

/-! ### The passes of the constructor -/

theorem value_setTags (names : List QString) (tag : QString) (m : DocHash) (name : QString) :
    (CommandCompleterModel.setTags m names tag).value name =
      if name ∈ names then { m.value name with tag := tag } else m.value name := by
  induction names generalizing m with
  | nil => simp [CommandCompleterModel.setTags]
  | cons n ns ih =>
    have hstep : CommandCompleterModel.setTags m (n :: ns) tag =
        CommandCompleterModel.setTags (m.modify n fun d => { d with tag := tag }) ns tag := rfl
    rw [hstep, ih]
    by_cases h : name = n
    · subst h
      rw [value_modify_self]
      by_cases h2 : name ∈ ns <;> simp [h2]
    · rw [value_modify_of_ne _ _ _ _ h]
      by_cases h2 : name ∈ ns <;> simp [h, h2]

theorem mem_keys_setTags (names : List QString) (tag : QString) (m : DocHash) (x : QString) :
    x ∈ (CommandCompleterModel.setTags m names tag).keys ↔ x ∈ m.keys ∨ x ∈ names := by
  induction names generalizing m with
  | nil => simp [CommandCompleterModel.setTags]
  | cons n ns ih =>
    have hstep : CommandCompleterModel.setTags m (n :: ns) tag =
        CommandCompleterModel.setTags (m.modify n fun d => { d with tag := tag }) ns tag := rfl
    rw [hstep, ih, mem_keys_modify]
    simp only [List.mem_cons]
    tauto

theorem nodup_keys_setTags (names : List QString) (tag : QString) (m : DocHash)
    (hm : m.keys.Nodup) : (CommandCompleterModel.setTags m names tag).keys.Nodup := by
  induction names generalizing m with
  | nil => simpa [CommandCompleterModel.setTags] using hm
  | cons n ns ih =>
    have hstep : CommandCompleterModel.setTags m (n :: ns) tag =
        CommandCompleterModel.setTags (m.modify n fun d => { d with tag := tag }) ns tag := rfl
    rw [hstep]
    exact ih _ (nodup_keys_modify _ _ _ hm)

theorem tag_addDocumentation (m : DocHash) (name api documentation other : QString) :
    ((CommandCompleterModel.addDocumentation m name api documentation).value other).tag =
      (m.value other).tag := by
  unfold CommandCompleterModel.addDocumentation
  by_cases h : other = name
  · subst h; rw [value_modify_self]
  · rw [value_modify_of_ne _ _ _ _ h]

theorem tag_addDocumentationRows (rows : List (QString × QString × QString)) (m : DocHash)
    (other : QString) :
    ((CommandCompleterModel.addDocumentationRows m rows).value other).tag =
      (m.value other).tag := by
  induction rows generalizing m with
  | nil => rfl
  | cons r rs ih =>
    have hstep : CommandCompleterModel.addDocumentationRows m (r :: rs) =
        CommandCompleterModel.addDocumentationRows
          (CommandCompleterModel.addDocumentation m r.1 r.2.1 r.2.2) rs := rfl
    rw [hstep, ih, tag_addDocumentation]

theorem mem_keys_addDocumentationRows (rows : List (QString × QString × QString))
    (m : DocHash) (x : QString) :
    x ∈ (CommandCompleterModel.addDocumentationRows m rows).keys ↔
      x ∈ m.keys ∨ ∃ r ∈ rows, r.1 = x := by
  induction rows generalizing m with
  | nil => simp [CommandCompleterModel.addDocumentationRows]
  | cons r rs ih =>
    have hstep : CommandCompleterModel.addDocumentationRows m (r :: rs) =
        CommandCompleterModel.addDocumentationRows
          (CommandCompleterModel.addDocumentation m r.1 r.2.1 r.2.2) rs := rfl
    rw [hstep, ih]
    unfold CommandCompleterModel.addDocumentation
    rw [mem_keys_modify]
    simp only [List.mem_cons, exists_eq_or_imp]
    constructor
    · rintro ((h | h) | h)
      · exact Or.inl h
      · exact Or.inr (Or.inl h.symm)
      · exact Or.inr (Or.inr h)
    · rintro (h | h | h)
      · exact Or.inl (Or.inl h)
      · exact Or.inl (Or.inr h.symm)
      · exact Or.inr h

theorem nodup_keys_addDocumentationRows (rows : List (QString × QString × QString))
    (m : DocHash) (hm : m.keys.Nodup) :
    (CommandCompleterModel.addDocumentationRows m rows).keys.Nodup := by
  induction rows generalizing m with
  | nil => simpa [CommandCompleterModel.addDocumentationRows] using hm
  | cons r rs ih =>
    have hstep : CommandCompleterModel.addDocumentationRows m (r :: rs) =
        CommandCompleterModel.addDocumentationRows
          (CommandCompleterModel.addDocumentation m r.1 r.2.1 r.2.2) rs := rfl
    rw [hstep]
    exact ih _ (nodup_keys_modify _ _ _ hm)

/-- The tag of a name after construction: the tag of the last pass that holds
the name. -/
theorem tag_new (objects properties functions keywords : List QString)
    (rows : List (QString × QString × QString)) (name : QString) :
    ((CommandCompleterModel.new objects properties functions keywords rows).m_doc.value name).tag
      = lastPassTag objects properties functions keywords name := by
  simp only [CommandCompleterModel.new, tag_addDocumentationRows, value_setTags, lastPassTag]
  by_cases hk : name ∈ keywords <;> by_cases hf : name ∈ functions <;>
    by_cases hp : name ∈ properties <;> by_cases ho : name ∈ objects <;>
    simp [hk, hf, hp, ho, DocHash.value]

/-! ### The documentation text -/

theorem intercalate_cons_cons {α : Type} (sep a b : List α) (l : List (List α)) :
    sep.intercalate (a :: b :: l) = a ++ sep ++ sep.intercalate (b :: l) := by
  simp [List.intercalate]

theorem intercalate_append_cons {α : Type} (sep a b : List α) (l : List (List α)) :
    sep.intercalate ((a ++ sep ++ b) :: l) = sep.intercalate (a :: b :: l) := by
  cases l with
  | nil => simp [List.intercalate]
  | cons c l => simp [intercalate_cons_cons]

theorem doc_addDocumentation (m : DocHash) (name api documentation other : QString) :
    ((CommandCompleterModel.addDocumentation m name api documentation).value other).doc =
      if other = name then
        (if (m.value name).doc = [] then [] else (m.value name).doc ++ "\n".toList)
          ++ (api ++ "\n    ".toList ++ documentation)
      else (m.value other).doc := by
  unfold CommandCompleterModel.addDocumentation
  by_cases h : other = name
  · subst h
    rw [value_modify_self, if_pos rfl]
    cases hd : (m.value other).doc <;> simp
  · rw [value_modify_of_ne _ _ _ _ h, if_neg h]

/-- The documentation text of a name after the rows are registered on a table:
the text the table held, if any, and the entries of the name, joined by line
breaks. -/
theorem doc_addDocumentationRows (rows : List (QString × QString × QString)) (m : DocHash)
    (name : QString) :
    ((CommandCompleterModel.addDocumentationRows m rows).value name).doc =
      "\n".toList.intercalate
        (if (m.value name).doc = [] then docEntries rows name
          else (m.value name).doc :: docEntries rows name) := by
  induction rows generalizing m with
  | nil =>
    by_cases h : (m.value name).doc = []
    · simp [CommandCompleterModel.addDocumentationRows, docEntries, h, List.intercalate]
    · simp [CommandCompleterModel.addDocumentationRows, docEntries, h, List.intercalate]
  | cons r rs ih =>
    have hstep : CommandCompleterModel.addDocumentationRows m (r :: rs) =
        CommandCompleterModel.addDocumentationRows
          (CommandCompleterModel.addDocumentation m r.1 r.2.1 r.2.2) rs := rfl
    rw [hstep, ih, doc_addDocumentation]
    by_cases hn : r.1 = name
    · have hentries : docEntries (r :: rs) name =
          (r.2.1 ++ "\n    ".toList ++ r.2.2) :: docEntries rs name := by
        simp [docEntries, hn]
      rw [hentries, if_pos hn.symm, hn]
      by_cases h : (m.value name).doc = []
      · rw [if_pos h, if_pos h, List.nil_append, if_neg (by simp)]
      · rw [if_neg h, if_neg h, if_neg (by simp)]
        rw [← intercalate_append_cons]
    · have hentries : docEntries (r :: rs) name = docEntries rs name := by
        simp [docEntries, hn]
      have hn' : ¬ name = r.1 := fun e => hn e.symm
      simp only [hentries, hn', if_false]

theorem doc_setTags (names : List QString) (tag : QString) (m : DocHash) (name : QString) :
    ((CommandCompleterModel.setTags m names tag).value name).doc = (m.value name).doc := by
  rw [value_setTags]
  by_cases h : name ∈ names <;> simp [h]

/-- C6: for every sequence of rows (name, signature, description) registered
with `addDocumentation` and every name, the documentation text stored under the
name is the entries `signature ++ "\n    " ++ description` of the rows with that
name, in the order of the rows, joined by a single line break, with no line
break before or after. -/
theorem doc_new (objects properties functions keywords : List QString)
    (rows : List (QString × QString × QString)) (name : QString) :
    ((CommandCompleterModel.new objects properties functions keywords rows).m_doc.value name).doc
      = "\n".toList.intercalate (docEntries rows name) := by
  simp only [CommandCompleterModel.new]
  rw [doc_addDocumentationRows]
  simp only [doc_setTags]
  simp [DocHash.value]

/-- C6, the witness of the claim: the documentation of `help` in the table of
the source. -/
theorem doc_new_help :
    ((CommandCompleterModel.new [] [] [] [] scriptDocumentation).m_doc.value "help".toList).doc
      = ("String help()\n    Returns help string.\n" ++
          "String help(searchString, ...)\n    Returns help for matched commands.").toList :=
  (doc_new [] [] [] [] scriptDocumentation "help".toList).trans (by decide)

/-! ### The tags -/

/-- C7, as stated, fails: a name of the objects that is a keyword as well gets
the tag of the keywords, the last pass, not the tag of the objects. -/
theorem tag_not_first_pass :
    ((CommandCompleterModel.new ["x".toList] [] [] ["x".toList] []).m_doc.value "x".toList).tag
      = "k".toList ∧
    firstPassTag ["x".toList] [] [] ["x".toList] "x".toList = "t".toList ∧
    ((CommandCompleterModel.new ["x".toList] [] [] ["x".toList] []).m_doc.value "x".toList).tag
      ≠ firstPassTag ["x".toList] [] [] ["x".toList] "x".toList := by
  decide

/-- C7, amended: for every choice of the four name lists and every name, the
tag stored for the name after construction is the tag of the last pass that
holds the name, in the order objects, properties, functions, keywords; for a
name that only one of the lists holds this is the tag of the pass in which it
first appeared. -/
theorem tag_eq_last_pass (objects properties functions keywords : List QString)
    (rows : List (QString × QString × QString)) (name : QString) :
    ((CommandCompleterModel.new objects properties functions keywords rows).m_doc.value name).tag
      = lastPassTag objects properties functions keywords name ∧
    ((name ∈ objects → name ∉ properties ∧ name ∉ functions ∧ name ∉ keywords) →
      (name ∈ properties → name ∉ functions ∧ name ∉ keywords) →
      (name ∈ functions → name ∉ keywords) →
      ((CommandCompleterModel.new objects properties functions keywords rows).m_doc.value
          name).tag = firstPassTag objects properties functions keywords name) := by
  refine ⟨tag_new objects properties functions keywords rows name, ?_⟩
  intro h1 h2 h3
  rw [tag_new]
  unfold lastPassTag firstPassTag
  by_cases ho : name ∈ objects
  · obtain ⟨hp, hf, hk⟩ := h1 ho
    simp [ho, hp, hf, hk]
  · by_cases hp : name ∈ properties
    · obtain ⟨hf, hk⟩ := h2 hp
      simp [ho, hp, hf, hk]
    · by_cases hf : name ∈ functions
      · have hk := h3 hf
        simp [ho, hp, hf, hk]
      · simp [ho, hp, hf]

/-- C7, amended, at work: with lists that share no name, `clipboard` of the
functions gets the tag `fn`. -/
theorem tag_eq_last_pass_witness :
    ((CommandCompleterModel.new ["Dir".toList] ["mimeText".toList] ["clipboard".toList]
        ["var".toList] scriptDocumentation).m_doc.value "clipboard".toList).tag = "fn".toList :=
  ((tag_eq_last_pass ["Dir".toList] ["mimeText".toList] ["clipboard".toList] ["var".toList]
    scriptDocumentation "clipboard".toList).2 (by decide) (by decide) (by decide)).trans
    (by decide)

/-- C8: for every name, the tag looked up after construction is non-empty if
and only if one of the four name lists holds the name; a name of the
documentation list alone has an empty tag, and registering documentation never
changes a tag. -/
theorem tag_nonempty_iff (objects properties functions keywords : List QString)
    (rows : List (QString × QString × QString)) (name : QString) :
    (((CommandCompleterModel.new objects properties functions keywords rows).m_doc.value
        name).tag ≠ [] ↔
      (name ∈ objects ∨ name ∈ properties ∨ name ∈ functions ∨ name ∈ keywords)) ∧
    (∀ m : DocHash, ((CommandCompleterModel.addDocumentationRows m rows).value name).tag
      = (m.value name).tag) := by
  refine ⟨?_, fun m => tag_addDocumentationRows rows m name⟩
  rw [tag_new]
  unfold lastPassTag
  by_cases hk : name ∈ keywords <;> by_cases hf : name ∈ functions <;>
    by_cases hp : name ∈ properties <;> by_cases ho : name ∈ objects <;>
    simp [hk, hf, hp, ho]

/-- C8 at work: `mimeText`, a name of the properties, has a non-empty tag, and
`version`, a name of the documentation alone, has an empty one. -/
theorem tag_nonempty_iff_witness :
    ((CommandCompleterModel.new [] ["mimeText".toList] [] []
        [("version".toList, "String version()".toList,
          "Returns version string.".toList)]).m_doc.value "mimeText".toList).tag ≠ [] ∧
    ¬ ((CommandCompleterModel.new [] ["mimeText".toList] [] []
        [("version".toList, "String version()".toList,
          "Returns version string.".toList)]).m_doc.value "version".toList).tag ≠ [] :=
  ⟨(tag_nonempty_iff [] ["mimeText".toList] [] []
      [("version".toList, "String version()".toList, "Returns version string.".toList)]
      "mimeText".toList).1.mpr (by decide),
   fun h => absurd ((tag_nonempty_iff [] ["mimeText".toList] [] []
      [("version".toList, "String version()".toList, "Returns version string.".toList)]
      "version".toList).1.mp h) (by decide)⟩

/-! ### The columns and the rows of the model -/

theorem documentationForRow_eq (m : CommandCompleterModel) (r : Nat) (h : r < m.rowCount) :
    m.documentationForRow (r : Int) = m.m_doc.value (m.stringList.getD r []) := by
  have h' : r < m.stringList.length := h
  have hlt : (r : Int) < (m.stringList.length : Int) := by exact_mod_cast h'
  have hnot : ¬ ((m.stringList.length : Int) ≤ (r : Int)) := by omega
  have h0 : ¬ ((r : Int) < 0) := by omega
  simp [CommandCompleterModel.documentationForRow, CommandCompleterModel.index,
    CommandCompleterModel.rowCount, CommandCompleterModel.columnCount,
    CommandCompleterModel.stringListData, hlt, hnot, h0, Qt.EditRole, Qt.DisplayRole,
    QVariant.toQString]

theorem typeForRow_eq (m : CommandCompleterModel) (row : Int) :
    m.typeForRow row = categoryLabel (m.documentationForRow row).tag := by
  unfold CommandCompleterModel.typeForRow categoryLabel
  cases (m.documentationForRow row).tag with
  | nil => rfl
  | cons c t =>
    simp only [List.head?_cons]
    split_ifs with h1 h2 h3 h4 h5
    · subst h1; rfl
    · subst h2; rfl
    · subst h3; rfl
    · subst h4; rfl
    · subst h5; rfl
    · split <;> simp_all

/-- C9, as stated, fails: for a row of the objects the display value of
column 1 is the tag `t` itself, while the label of the tag is `type`. -/
theorem data_column_one_not_label :
    (CommandCompleterModel.new ["ByteArray".toList] [] [] [] []).data ⟨0, 1⟩ Qt.DisplayRole
      = .string "t".toList ∧
    categoryLabel "t".toList = "type".toList ∧
    (CommandCompleterModel.new ["ByteArray".toList] [] [] [] []).data ⟨0, 1⟩ Qt.DisplayRole
      ≠ .string (categoryLabel "t".toList) := by
  decide

/-- C9, amended: for every row of the model, the display value of column 1 is
the tag of the row itself; the category label resolved from the first letter of
the tag (`array` for `a`, `keyword` for `k`, `function` for `f`, `object` for
`o`, `type` for `t`, none for an empty tag or another letter) is the tool tip of
column 0; the display value of column 0 is the symbol name and that of column 2
the documentation text. -/
theorem data_columns (m : CommandCompleterModel) (r : Nat) (h : r < m.rowCount) :
    m.data ⟨r, 1⟩ Qt.DisplayRole = .string (m.m_doc.value (m.stringList.getD r [])).tag ∧
    m.data ⟨r, 0⟩ Qt.ToolTipRole =
      .string (categoryLabel (m.m_doc.value (m.stringList.getD r [])).tag) ∧
    m.data ⟨r, 0⟩ Qt.DisplayRole = .string (m.stringList.getD r []) ∧
    m.data ⟨r, 2⟩ Qt.DisplayRole = .string (m.m_doc.value (m.stringList.getD r [])).doc := by
  have h' : r < m.stringList.length := h
  have hnot : ¬ ((m.stringList.length : Int) ≤ (r : Int)) := by omega
  refine ⟨?_, ?_, ?_, ?_⟩
  · simp [CommandCompleterModel.data, documentationForRow_eq m r h]
  · simp [CommandCompleterModel.data, typeForRow_eq, documentationForRow_eq m r h,
      Qt.ToolTipRole]
  · simp [CommandCompleterModel.data, CommandCompleterModel.stringListData, hnot,
      Qt.ToolTipRole, Qt.DisplayRole]
  · simp [CommandCompleterModel.data, documentationForRow_eq m r h]

/-- C9, amended, at work: the row of `clipboard`, a function, shows the tag `fn`
in column 1 and has the tool tip `function`. -/
theorem data_columns_witness :
    (CommandCompleterModel.new [] [] ["clipboard".toList] []
        [("clipboard".toList, "ByteArray clipboard([mimeType])".toList,
          "Returns clipboard data for MIME type (default is text).".toList)]).data ⟨0, 1⟩
        Qt.DisplayRole = .string "fn".toList ∧
    (CommandCompleterModel.new [] [] ["clipboard".toList] []
        [("clipboard".toList, "ByteArray clipboard([mimeType])".toList,
          "Returns clipboard data for MIME type (default is text).".toList)]).data ⟨0, 0⟩
        Qt.ToolTipRole = .string "function".toList := by
  have h := data_columns
    (CommandCompleterModel.new [] [] ["clipboard".toList] []
        [("clipboard".toList, "ByteArray clipboard([mimeType])".toList,
          "Returns clipboard data for MIME type (default is text).".toList)]) 0 (by decide)
  exact ⟨h.1.trans (by decide), h.2.1.trans (by decide)⟩

/-- C10, as stated, fails: a name that two of the rows hold has one entry in the
documentation table, and a name of the documentation alone has an entry and no
row. -/
theorem rowCount_not_number_of_keys :
    ((CommandCompleterModel.new ["x".toList] ["x".toList] [] [] []).rowCount = 2 ∧
      (CommandCompleterModel.new ["x".toList] ["x".toList] [] [] []).m_doc.keys.length = 1) ∧
    ((CommandCompleterModel.new [] [] [] []
        [("version".toList, "String version()".toList, "Returns version string.".toList)]).rowCount
        = 0 ∧
      (CommandCompleterModel.new [] [] [] []
        [("version".toList, "String version()".toList,
          "Returns version string.".toList)]).m_doc.keys.length = 1) := by
  decide

/-- C10, amended: for every choice of the four name lists the rows of the model
are the concatenation objects, properties, functions, keywords in that order,
and the row count is the sum of their lengths; the documentation table has one
entry for each name of a row and for each name of the documentation, and no
other; so the row count is the number of entries when no name is repeated in
the lists and every documented name is in the lists. -/
theorem rows_new (objects properties functions keywords : List QString)
    (rows : List (QString × QString × QString)) :
    (CommandCompleterModel.new objects properties functions keywords rows).stringList
      = objects ++ properties ++ functions ++ keywords ∧
    (CommandCompleterModel.new objects properties functions keywords rows).rowCount
      = objects.length + properties.length + functions.length + keywords.length ∧
    (∀ name, name ∈ (CommandCompleterModel.new objects properties functions keywords
        rows).m_doc.keys ↔
      (name ∈ objects ++ properties ++ functions ++ keywords ∨ ∃ r ∈ rows, r.1 = name)) ∧
    (CommandCompleterModel.new objects properties functions keywords rows).m_doc.keys.Nodup ∧
    ((objects ++ properties ++ functions ++ keywords).Nodup →
      (∀ r ∈ rows, r.1 ∈ objects ++ properties ++ functions ++ keywords) →
      (CommandCompleterModel.new objects properties functions keywords rows).m_doc.keys.length
        = (CommandCompleterModel.new objects properties functions keywords rows).rowCount) := by
  have hmem : ∀ name, name ∈ (CommandCompleterModel.new objects properties functions keywords
        rows).m_doc.keys ↔
      (name ∈ objects ++ properties ++ functions ++ keywords ∨ ∃ r ∈ rows, r.1 = name) := by
    intro name
    simp only [CommandCompleterModel.new, mem_keys_addDocumentationRows, mem_keys_setTags,
      List.mem_append]
    simp [DocHash.keys]
  have hnodup : (CommandCompleterModel.new objects properties functions keywords
      rows).m_doc.keys.Nodup := by
    simp only [CommandCompleterModel.new]
    apply nodup_keys_addDocumentationRows
    apply nodup_keys_setTags
    apply nodup_keys_setTags
    apply nodup_keys_setTags
    apply nodup_keys_setTags
    simp [DocHash.keys]
  refine ⟨rfl, ?_, hmem, hnodup, ?_⟩
  · simp [CommandCompleterModel.rowCount, CommandCompleterModel.new,
      CommandCompleterModel.scriptableCompletions, Nat.add_assoc]
  · intro hnd hrows
    have hperm : List.Perm
        (CommandCompleterModel.new objects properties functions keywords rows).m_doc.keys
        (objects ++ properties ++ functions ++ keywords) := by
      rw [List.perm_ext_iff_of_nodup hnodup hnd]
      intro name
      rw [hmem]
      constructor
      · rintro (h | ⟨r, hr, rfl⟩)
        · exact h
        · exact hrows r hr
      · exact Or.inl
    rw [hperm.length_eq]
    rfl

/-- C10, amended, at work: with four lists that repeat no name and hold every
documented name, the model has as many rows as the table has entries. -/
theorem rows_new_witness :
    (CommandCompleterModel.new ["Dir".toList] ["mimeText".toList]
        ["version".toList, "help".toList] ["var".toList]
        [("version".toList, "String version()".toList, "Returns version string.".toList),
         ("help".toList, "String help()".toList, "Returns help string.".toList)]).m_doc.keys.length
      = 5 :=
  ((rows_new ["Dir".toList] ["mimeText".toList] ["version".toList, "help".toList]
      ["var".toList]
      [("version".toList, "String version()".toList, "Returns version string.".toList),
       ("help".toList, "String help()".toList, "Returns help string.".toList)]).2.2.2.2
    (by decide) (by decide)).trans (by decide)

/-! ### The size of the popup -/

/-- The size `timerEvent` asks for, for every popup with a model: the width is
the width of the specification; the height counts the height of the vertical
scroll bar where the horizontal one is visible. -/
theorem timerEvent_size (p : CommandCompleterPopup) (model : QAbstractItemModel)
    (hm : p.model = some model) :
    p.timerEvent.size.1 = p.specWidth model ∧
    p.timerEvent.size.2 = p.specHeight model +
      (if p.horizontalScrollBar.isVisible
        then p.verticalScrollBar.height - p.horizontalScrollBar.height else 0) := by
  simp only [CommandCompleterPopup.timerEvent, hm, CommandCompleterPopup.resize,
    CommandCompleterPopup.specWidth, CommandCompleterPopup.specHeight,
    CommandCompleterPopup.columnsWidth, CommandCompleterPopup.rowsHeight]
  refine ⟨trivial, ?_⟩
  cases p.horizontalScrollBar.isVisible
  · simp
  · simp only [if_true]; omega

/-- C11, the code at the failing input: with three rows of height 20 and a
visible horizontal scroll bar of height 16, the height the claim gives is
60 + 16 = 76, and `timerEvent` asks for 60 + 60 = 120, adding the height of the
vertical scroll bar; the width, 300, is the width of the claim. -/
theorem timerEvent_height_counts_vertical_scrollBar :
    popupWithHorizontalScrollBar.specHeight ⟨3, 3⟩ = 76 ∧
    popupWithHorizontalScrollBar.timerEvent.size.2 = 120 ∧
    popupWithHorizontalScrollBar.timerEvent.size.2
      ≠ popupWithHorizontalScrollBar.specHeight ⟨3, 3⟩ ∧
    popupWithHorizontalScrollBar.timerEvent.size.1 = 300 ∧
    popupWithHorizontalScrollBar.specWidth ⟨3, 3⟩ = 300 := by
  decide

/-! ### The type label of a row -/

theorem getD_mem_of_lt (l : List QString) (r : Nat) (h : r < l.length) : l.getD r [] ∈ l := by
  rw [List.getD_eq_getElem?_getD, List.getElem?_eq_getElem h]
  exact List.getElem_mem h

theorem categoryLabel_lastPassTag (objects properties functions keywords : List QString)
    (name : QString)
    (h : name ∈ objects ∨ name ∈ properties ∨ name ∈ functions ∨ name ∈ keywords) :
    categoryLabel (lastPassTag objects properties functions keywords name) ∈
      ["type".toList, "object".toList, "function".toList, "keyword".toList] := by
  unfold lastPassTag
  by_cases hk : name ∈ keywords
  · rw [if_pos hk]; decide
  · rw [if_neg hk]
    by_cases hf : name ∈ functions
    · rw [if_pos hf]; decide
    · rw [if_neg hf]
      by_cases hp : name ∈ properties
      · rw [if_pos hp]; decide
      · rw [if_neg hp]
        by_cases ho : name ∈ objects
        · rw [if_pos ho]; decide
        · rcases h with h | h | h | h
          · exact absurd h ho
          · exact absurd h hp
          · exact absurd h hf
          · exact absurd h hk

/-- C12: for every choice of the four name lists and every valid row of the
model, the type label `typeForRow` computes, the tool tip of column 0, is one of
`type`, `object`, `function`, `keyword`; it is never empty and never `array`. -/
theorem typeForRow_new (objects properties functions keywords : List QString)
    (rows : List (QString × QString × QString)) (r : Nat)
    (h : r < (CommandCompleterModel.new objects properties functions keywords rows).rowCount) :
    (CommandCompleterModel.new objects properties functions keywords rows).typeForRow r ∈
      ["type".toList, "object".toList, "function".toList, "keyword".toList] ∧
    (CommandCompleterModel.new objects properties functions keywords rows).typeForRow r ≠ [] ∧
    (CommandCompleterModel.new objects properties functions keywords rows).typeForRow r
      ≠ "array".toList ∧
    (CommandCompleterModel.new objects properties functions keywords rows).data ⟨r, 0⟩
      Qt.ToolTipRole = .string
        ((CommandCompleterModel.new objects properties functions keywords rows).typeForRow r) := by
  have hmem : (CommandCompleterModel.new objects properties functions keywords rows).typeForRow r ∈
      ["type".toList, "object".toList, "function".toList, "keyword".toList] := by
    rw [typeForRow_eq, documentationForRow_eq _ r h, tag_new]
    apply categoryLabel_lastPassTag
    have hin := getD_mem_of_lt
      (CommandCompleterModel.new objects properties functions keywords rows).stringList r h
    have hlist : (CommandCompleterModel.new objects properties functions keywords rows).stringList
        = objects ++ properties ++ functions ++ keywords := rfl
    rw [hlist] at hin ⊢
    simp only [List.mem_append] at hin
    tauto
  refine ⟨hmem, ?_, ?_, ?_⟩
  · intro h0
    rw [h0] at hmem
    exact absurd hmem (by decide)
  · intro h0
    rw [h0] at hmem
    exact absurd hmem (by decide)
  · simp [CommandCompleterModel.data, Qt.ToolTipRole]

/-- C12 at work: the row of `clipboard`, a name of the functions, has the type
label `function`, and the row of `Dir`, a name of the objects, the label
`type`. -/
theorem typeForRow_new_witness :
    (CommandCompleterModel.new ["Dir".toList] [] ["clipboard".toList] ["var".toList]
        [("clipboard".toList, "ByteArray clipboard([mimeType])".toList,
          "Returns clipboard data for MIME type (default is text).".toList)]).typeForRow 1
      = "function".toList ∧
    (CommandCompleterModel.new ["Dir".toList] [] ["clipboard".toList] ["var".toList]
        [("clipboard".toList, "ByteArray clipboard([mimeType])".toList,
          "Returns clipboard data for MIME type (default is text).".toList)]).typeForRow 1
      ≠ [] := by
  have h := typeForRow_new ["Dir".toList] [] ["clipboard".toList] ["var".toList]
    [("clipboard".toList, "ByteArray clipboard([mimeType])".toList,
      "Returns clipboard data for MIME type (default is text).".toList)] 1 (by decide)
  exact ⟨by decide, h.2.1⟩

end CopyQ
